import Mathlib

/-!
# Verification of the `rust-tron` wallet-cli ABI utility module

This development gives a shallow embedding of `src/wallet-cli/src/utils/abi.rs`
and of the external collaborators it delegates to (the `ethabi` codec, the
`hex` codec and the external hash / address formatters, which are modelled
from the specification since their sources are not part of this repository),
and proves the specified properties about them.

Machine integers are modelled as `Nat`/`Int`; byte strings as `List Nat`
(with explicit `< 256` range conditions where they matter).
-/

set_option maxHeartbeats 1000000
set_option maxRecDepth 16384

namespace Abi

/-! ## Bytes, 32-byte words, and hex -/

/-- Big-endian interpretation of a byte list as a natural number. -/
def beToNat (bs : List Nat) : Nat :=
  bs.foldl (fun a b => a * 256 + b) 0

/-- Big-endian byte encoding of `v`, exactly `k` bytes (truncates to `v % 256^k`). -/
def natToBeBytes : Nat → Nat → List Nat
  | 0, _ => []
  | k + 1, v => natToBeBytes k (v / 256) ++ [v % 256]

/-- A 32-byte big-endian word, the unit of the ABI head/tail layout. -/
def wordOf (v : Nat) : List Nat := natToBeBytes 32 v

/-- Round a byte count up to the next multiple of 32. -/
def pad32Len (n : Nat) : Nat := ((n + 31) / 32) * 32

/-- Right-pad a byte string with zeros to a multiple of 32 bytes. -/
def rightPad (bs : List Nat) : List Nat :=
  bs ++ List.replicate (pad32Len bs.length - bs.length) 0

theorem natToBeBytes_length (k v : Nat) : (natToBeBytes k v).length = k := by
  induction k generalizing v with
  | zero => rfl
  | succ k ih => simp [natToBeBytes, ih]

theorem wordOf_length (v : Nat) : (wordOf v).length = 32 :=
  natToBeBytes_length 32 v

theorem beToNat_append_singleton (bs : List Nat) (b : Nat) :
    beToNat (bs ++ [b]) = beToNat bs * 256 + b := by
  simp [beToNat, List.foldl_append]

theorem beToNat_natToBeBytes (k v : Nat) :
    beToNat (natToBeBytes k v) = v % 256 ^ k := by
  induction k generalizing v with
  | zero => simp [natToBeBytes, beToNat, Nat.mod_one]
  | succ k ih =>
    rw [natToBeBytes, beToNat_append_singleton, ih]
    have h : (256:Nat) ^ (k+1) = 256 * 256 ^ k := by ring
    rw [h, Nat.mod_mul]
    ring

theorem beToNat_wordOf (v : Nat) : beToNat (wordOf v) = v % 2 ^ 256 := by
  have : (256 : Nat) ^ 32 = 2 ^ 256 := by norm_num
  rw [wordOf, beToNat_natToBeBytes, this]

theorem beToNat_wordOf_of_lt {v : Nat} (h : v < 2 ^ 256) :
    beToNat (wordOf v) = v := by
  rw [beToNat_wordOf, Nat.mod_eq_of_lt h]

theorem pad32Len_ge (n : Nat) : n ≤ pad32Len n := by
  have h : n ≤ (n + 31) / 32 * 32 := by omega
  simpa [pad32Len] using h

theorem pad32Len_mod (n : Nat) : pad32Len n % 32 = 0 := by
  simp [pad32Len, Nat.mul_mod_left]

theorem rightPad_length (bs : List Nat) :
    (rightPad bs).length = pad32Len bs.length := by
  have := pad32Len_ge bs.length
  simp [rightPad]
  omega

theorem natToBeBytes_lt (k v : Nat) : ∀ b ∈ natToBeBytes k v, b < 256 := by
  induction k generalizing v with
  | zero => intro b hb; simp [natToBeBytes] at hb
  | succ k ih =>
    intro b hb
    simp only [natToBeBytes, List.mem_append, List.mem_singleton] at hb
    rcases hb with h | h
    · exact ih _ b h
    · subst h; exact Nat.mod_lt _ (by norm_num)

theorem wordOf_lt (v : Nat) : ∀ b ∈ wordOf v, b < 256 :=
  natToBeBytes_lt 32 v

/-- Value of a single hex digit character, if any. -/
def hexVal (c : Char) : Option Nat :=
  if 48 ≤ c.toNat ∧ c.toNat ≤ 57 then some (c.toNat - 48)
  else if 97 ≤ c.toNat ∧ c.toNat ≤ 102 then some (c.toNat - 87)
  else if 65 ≤ c.toNat ∧ c.toNat ≤ 70 then some (c.toNat - 55)
  else none

/-- Lowercase hex digit for a value `< 16`. -/
def hexDigitChar (d : Nat) : Char :=
  Char.ofNat (if d < 10 then 48 + d else 87 + d)

/-- Modelled from the spec: the `hex` crate's `FromHex for Vec<u8>` — every two
hex digits form one byte; an odd number of digits or a non-hex character is an
error (modelled as `none`). -/
def fromHexPairs : List Char → Option (List Nat)
  | [] => some []
  | [_] => none
  | a :: b :: rest =>
    (hexVal a).bind fun x =>
    (hexVal b).bind fun y =>
    (fromHexPairs rest).map fun r => (x * 16 + y) :: r

/-- Modelled from the spec: lowercase hex rendering of a byte string, as the
`hex` crate's `encode` / `ToHex::encode_hex::<String>` produce. -/
def hexStr (bs : List Nat) : String :=
  String.mk (bs.flatMap (fun b => [hexDigitChar (b / 16), hexDigitChar (b % 16)]))

theorem hexVal_hexDigitChar {d : Nat} (h : d < 16) :
    hexVal (hexDigitChar d) = some d := by
  interval_cases d <;> decide

theorem hexVal_lt {c : Char} {x : Nat} (h : hexVal c = some x) : x < 16 := by
  unfold hexVal at h
  split at h
  · injection h with h; omega
  · split at h
    · injection h with h; omega
    · split at h
      · injection h with h; omega
      · cases h

theorem fromHexPairs_hexStr {bs : List Nat} (h : ∀ b ∈ bs, b < 256) :
    fromHexPairs (hexStr bs).data = some bs := by
  induction bs with
  | nil => rfl
  | cons b rest ih =>
    have hb : b < 256 := h b (by simp)
    have hhi : b / 16 < 16 := by omega
    have hlo : b % 16 < 16 := by omega
    have ihr := ih (fun x hx => h x (by simp [hx]))
    simp only [hexStr, List.flatMap_cons, List.cons_append, List.nil_append] at ihr ⊢
    rw [fromHexPairs, hexVal_hexDigitChar hhi, hexVal_hexDigitChar hlo, ihr]
    simp only [Option.some_bind, Option.map_some]
    have hbv : b / 16 * 16 + b % 16 = b := by omega
    rw [hbv]
    rfl

/-- Success of hex decoding forces an even digit count, all-hex characters,
half-length output, and in-range bytes. -/
theorem fromHexPairs_ok {cs : List Char} {bs : List Nat}
    (h : fromHexPairs cs = some bs) :
    cs.length % 2 = 0 ∧ bs.length = cs.length / 2 ∧
      (∀ c ∈ cs, (hexVal c).isSome) ∧ (∀ b ∈ bs, b < 256) := by
  induction cs using fromHexPairs.induct generalizing bs with
  | case1 =>
    simp only [fromHexPairs, Option.some.injEq] at h
    subst h
    simp
  | case2 c =>
    rw [fromHexPairs] at h
    cases h
  | case3 a b rest ih =>
    rw [fromHexPairs] at h
    obtain ⟨x, hx, h⟩ := Option.bind_eq_some.mp h
    obtain ⟨y, hy, h⟩ := Option.bind_eq_some.mp h
    obtain ⟨r, hr, h⟩ := Option.map_eq_some'.mp h
    subst h
    obtain ⟨heven, hlen, hhex, hlt⟩ := ih hr
    refine ⟨by simp [List.length_cons]; omega, by simp [List.length_cons]; omega, ?_, ?_⟩
    · intro c hc
      simp only [List.mem_cons] at hc
      rcases hc with rfl | rfl | hc
      · simp [hx]
      · simp [hy]
      · exact hhex c hc
    · intro v hv
      simp only [List.mem_cons] at hv
      rcases hv with rfl | hv
      · have := hexVal_lt hx
        have := hexVal_lt hy
        omega
      · exact hlt v hv

/-! ## Type descriptors and tokens

Modelled from the spec: `ethabi`'s `ParamType` (the spec's `TypeDescriptor`)
and `Token` (`Int` carries a mathematical signed integer, the big-signed-int of
the spec's data model; strings carry their UTF-8 bytes). -/

/-- Modelled from the spec: the recursive type-descriptor variant. -/
inductive ParamType where
  | bool
  | uint (bits : Nat)
  | int (bits : Nat)
  | address
  | fixedBytes (n : Nat)
  | bytes
  | string
  | array (t : ParamType)
  | fixedArray (t : ParamType) (n : Nat)
  | tuple (ts : List ParamType)

/-- Modelled from the spec: the decoded/encoded value variant mirroring
`ParamType`'s shape. -/
inductive Token where
  | bool (b : Bool)
  | uint (v : Nat)
  | int (v : Int)
  | address (a : List Nat)
  | fixedBytes (bs : List Nat)
  | bytes (bs : List Nat)
  | string (bs : List Nat)
  | array (xs : List Token)
  | fixedArray (xs : List Token)
  | tuple (xs : List Token)

mutual
/-- Modelled from the spec: a descriptor is dynamic iff it is a string, a
variable-length byte blob, a variable-length array, or a composite containing
a dynamic element. -/
def isDynamic : ParamType → Bool
  | .bytes => true
  | .string => true
  | .array _ => true
  | .fixedArray t n => isDynamic t && decide (n ≠ 0)
  | .tuple ds => anyDyn ds
  | _ => false
def anyDyn : List ParamType → Bool
  | [] => false
  | d :: ds => isDynamic d || anyDyn ds
end

mutual
/-- Token-side dynamic-ness, used by the (token-driven) encoder. -/
def isDynamicTok : Token → Bool
  | .bytes _ => true
  | .string _ => true
  | .array _ => true
  | .fixedArray xs => anyDynTok xs
  | .tuple xs => anyDynTok xs
  | _ => false
def anyDynTok : List Token → Bool
  | [] => false
  | t :: ts => isDynamicTok t || anyDynTok ts
end

mutual
/-- Head-slot size of a static descriptor (32 for dynamic ones, where the head
slot holds an offset word). -/
def staticSize : ParamType → Nat
  | .fixedArray t n => n * staticSize t
  | .tuple ds => sumStatic ds
  | _ => 32
def sumStatic : List ParamType → Nat
  | [] => 0
  | d :: ds => staticSize d + sumStatic ds
end

mutual
/-- Length in bytes of the full (tail) encoding of a token. -/
def encLen : Token → Nat
  | .bool _ => 32
  | .uint _ => 32
  | .int _ => 32
  | .address _ => 32
  | .fixedBytes bs => pad32Len bs.length
  | .bytes bs => 32 + pad32Len bs.length
  | .string bs => 32 + pad32Len bs.length
  | .array xs => 32 + seqLen xs
  | .fixedArray xs => seqLen xs
  | .tuple xs => seqLen xs
/-- Length in bytes of the head/tail encoding of a token sequence. -/
def seqLen : List Token → Nat
  | [] => 0
  | t :: ts => (if isDynamicTok t then 32 + encLen t else encLen t) + seqLen ts
end

/-- Total length of the head region of a token sequence. -/
def headsLen : List Token → Nat
  | [] => 0
  | t :: ts => (if isDynamicTok t then 32 else encLen t) + headsLen ts

/-- Total length of the tail region of a token sequence. -/
def tailsLen : List Token → Nat
  | [] => 0
  | t :: ts => (if isDynamicTok t then encLen t else 0) + tailsLen ts

theorem seqLen_eq_heads_tails (ts : List Token) :
    seqLen ts = headsLen ts + tailsLen ts := by
  induction ts with
  | nil => rfl
  | cons t ts ih =>
    rw [seqLen, headsLen, tailsLen, ih]
    by_cases hd : isDynamicTok t <;> simp [hd] <;> omega

/-- All bytes below 256. -/
def allLt256 : List Nat → Bool
  | [] => true
  | b :: bs => decide (b < 256) && allLt256 bs

theorem allLt256_iff (bs : List Nat) : allLt256 bs = true ↔ ∀ b ∈ bs, b < 256 := by
  induction bs with
  | nil => simp [allLt256]
  | cons b bs ih => simp [allLt256, ih]

mutual
/-- Conformance of a token to a descriptor: matching shape, in-range values,
and word-representable counts (counts are written as single 32-byte words by
the layout, so a conforming token's counts fit in a word). -/
def conf : ParamType → Token → Bool
  | .bool, .bool _ => true
  | .uint b, .uint v => decide (b ≤ 256) && decide (v < 2 ^ b)
  | .int b, .int v =>
      decide (0 < b) && decide (b ≤ 256) &&
      decide (-(2 ^ (b - 1) : Int) ≤ v) && decide (v < (2 ^ (b - 1) : Int))
  | .address, .address a => decide (a.length = 20) && allLt256 a
  | .fixedBytes n, .fixedBytes bs =>
      decide (bs.length = n) && decide (1 ≤ n) && decide (n ≤ 32) && allLt256 bs
  | .bytes, .bytes bs => allLt256 bs
  | .string, .string bs => allLt256 bs
  | .array t, .array xs => confArr t xs && decide (xs.length < 2 ^ 256)
  | .fixedArray t n, .fixedArray xs => confArr t xs && decide (xs.length = n)
  | .tuple ds, .tuple xs => confList ds xs
  | _, _ => false
def confArr : ParamType → List Token → Bool
  | _, [] => true
  | t, x :: xs => conf t x && confArr t xs
def confList : List ParamType → List Token → Bool
  | [], [] => true
  | d :: ds, x :: xs => conf d x && confList ds xs
  | [], _ :: _ => false
  | _ :: _, [] => false
end

/-! ## The codec (modelled from the spec)

Modelled from the spec: `ethabi::encode` / `ethabi::decode` — the standard
head/tail contract-ABI binary layout: a static token occupies its full static
encoding in the head region; a dynamic token puts a byte-offset word in the
head and appends its own encoding to the tail region; arrays prepend their
element count as a 32-byte word; integers are big-endian 32-byte words
(two's complement for signed); byte strings are length-prefixed and
right-padded to a word boundary. -/

mutual
/-- Modelled from the spec: full (tail) encoding of one token. -/
def encodeToken : Token → List Nat
  | .bool b => wordOf (if b then 1 else 0)
  | .uint v => wordOf v
  | .int v => wordOf (Int.toNat (v % (2 ^ 256)))
  | .address a => List.replicate 12 0 ++ a
  | .fixedBytes bs => rightPad bs
  | .bytes bs => wordOf bs.length ++ rightPad bs
  | .string bs => wordOf bs.length ++ rightPad bs
  | .array xs => wordOf xs.length ++ encode xs
  | .fixedArray xs => encode xs
  | .tuple xs => encode xs
termination_by t => (sizeOf t, 0)
/-- Head and tail regions of a token sequence; `off` is the byte offset at
which the next tail would land (offsets are relative to the frame start). -/
def encodeGo : List Token → Nat → List Nat × List Nat
  | [], _ => ([], [])
  | t :: ts, off =>
    if isDynamicTok t then
      let p := encodeGo ts (off + encLen t)
      (wordOf off ++ p.1, encodeToken t ++ p.2)
    else
      let p := encodeGo ts off
      (encodeToken t ++ p.1, p.2)
termination_by ts _ => (sizeOf ts, 0)
/-- Modelled from the spec: `ethabi::encode` — head region then tail region. -/
def encode (ts : List Token) : List Nat :=
  (encodeGo ts (headsLen ts)).1 ++ (encodeGo ts (headsLen ts)).2
termination_by (sizeOf ts, 1)
end

/-- Read one 32-byte big-endian word at byte position `pos`. -/
def readWord (frame : List Nat) (pos : Nat) : Option Nat :=
  if pos + 32 ≤ frame.length then some (beToNat ((frame.drop pos).take 32)) else none

mutual
/-- Modelled from the spec: decode one static token read inline at `pos`. -/
def decodeStat : ParamType → List Nat → Nat → Option Token
  | .bool, frame, pos =>
    (readWord frame pos).map fun w => .bool (w != 0)
  | .uint _, frame, pos => (readWord frame pos).map fun w => .uint w
  | .int _, frame, pos =>
    (readWord frame pos).map fun (w : Nat) =>
      .int (if w < 2 ^ 255 then (w : Int) else (w : Int) - 2 ^ 256)
  | .address, frame, pos =>
    if pos + 32 ≤ frame.length then
      some (.address (((frame.drop pos).take 32).drop 12))
    else none
  | .fixedBytes n, frame, pos =>
    if pos + 32 ≤ frame.length then some (.fixedBytes ((frame.drop pos).take n))
    else none
  | .fixedArray t n, frame, pos => (decodeElems t n frame pos).map .fixedArray
  | .tuple ds, frame, pos => (decodeGo ds frame pos).map .tuple
  | _, _, _ => none
termination_by d _ _ => (sizeOf d, 0)
/-- Modelled from the spec: decode one dynamic token whose frame starts at the
offset its head word pointed to. -/
def decodeDyn : ParamType → List Nat → Option Token
  | .bytes, frame =>
    (readWord frame 0).bind fun n =>
      if 32 + n ≤ frame.length then some (.bytes ((frame.drop 32).take n))
      else none
  | .string, frame =>
    (readWord frame 0).bind fun n =>
      if 32 + n ≤ frame.length then some (.string ((frame.drop 32).take n))
      else none
  | .array t, frame =>
    (readWord frame 0).bind fun n => (decodeElems t n (frame.drop 32) 0).map .array
  | .fixedArray t n, frame => (decodeElems t n frame 0).map .fixedArray
  | .tuple ds, frame => (decodeGo ds frame 0).map .tuple
  | _, _ => none
termination_by d _ => (sizeOf d, 0)
/-- Decode `n` elements of a uniform element type laid out head/tail. -/
def decodeElems : ParamType → Nat → List Nat → Nat → Option (List Token)
  | _, 0, _, _ => some []
  | t, n + 1, frame, cursor =>
    if isDynamic t then
      (readWord frame cursor).bind fun off =>
      (decodeDyn t (frame.drop off)).bind fun x =>
      (decodeElems t n frame (cursor + 32)).map fun xs => x :: xs
    else
      (decodeStat t frame cursor).bind fun x =>
      (decodeElems t n frame (cursor + staticSize t)).map fun xs => x :: xs
termination_by t n _ _ => (sizeOf t, n + 1)
/-- Decode a heterogeneous sequence laid out head/tail. -/
def decodeGo : List ParamType → List Nat → Nat → Option (List Token)
  | [], _, _ => some []
  | d :: ds, frame, cursor =>
    if isDynamic d then
      (readWord frame cursor).bind fun off =>
      (decodeDyn d (frame.drop off)).bind fun x =>
      (decodeGo ds frame (cursor + 32)).map fun xs => x :: xs
    else
      (decodeStat d frame cursor).bind fun x =>
      (decodeGo ds frame (cursor + staticSize d)).map fun xs => x :: xs
termination_by ds _ _ => (sizeOf ds, 0)
end

/-- Modelled from the spec: `ethabi::decode` — reconstruct the token list for
the given descriptors from the head/tail layout. -/
def decode (ds : List ParamType) (bytes : List Nat) : Option (List Token) :=
  decodeGo ds bytes 0

/-! ## Structural lemmas about conformance and the encoding -/

theorem conf_and_arr {t' : ParamType} {x : Token} {xs : List Token}
    (h : confArr t' (x :: xs) = true) : conf t' x = true ∧ confArr t' xs = true := by
  rw [confArr, Bool.and_eq_true] at h
  exact h

theorem conf_and_list {d : ParamType} {ds : List ParamType} {x : Token}
    {xs : List Token} (h : confList (d :: ds) (x :: xs) = true) :
    conf d x = true ∧ confList ds xs = true := by
  rw [confList, Bool.and_eq_true] at h
  exact h

theorem confList_nil_right {ds : List ParamType} (h : confList ds [] = true) :
    ds = [] := by
  cases ds with
  | nil => rfl
  | cons d ds => simp [confList] at h

theorem confList_nil_left {xs : List Token} (h : confList [] xs = true) :
    xs = [] := by
  cases xs with
  | nil => rfl
  | cons x xs => simp [confList] at h

mutual
/-- A conforming token is dynamic exactly when its descriptor is. -/
theorem dynAgree (d : ParamType) (t : Token) (h : conf d t = true) :
    isDynamicTok t = isDynamic d := by
  cases d with
  | bool => cases t <;> simp_all [conf, isDynamic, isDynamicTok]
  | uint b => cases t <;> simp_all [conf, isDynamic, isDynamicTok]
  | int b => cases t <;> simp_all [conf, isDynamic, isDynamicTok]
  | address => cases t <;> simp_all [conf, isDynamic, isDynamicTok]
  | fixedBytes n => cases t <;> simp_all [conf, isDynamic, isDynamicTok]
  | bytes => cases t <;> simp_all [conf, isDynamic, isDynamicTok]
  | string => cases t <;> simp_all [conf, isDynamic, isDynamicTok]
  | array t' => cases t <;> simp_all [conf, isDynamic, isDynamicTok]
  | fixedArray t' n =>
    cases t with
    | fixedArray xs =>
      rw [conf, Bool.and_eq_true] at h
      have hlen : xs.length = n := by simpa using h.2
      rw [isDynamicTok, isDynamic, dynAgreeArr t' xs h.1, hlen]
    | bool b => simp [conf] at h
    | uint v => simp [conf] at h
    | int v => simp [conf] at h
    | address a => simp [conf] at h
    | fixedBytes bs => simp [conf] at h
    | bytes bs => simp [conf] at h
    | string bs => simp [conf] at h
    | array ys => simp [conf] at h
    | tuple ys => simp [conf] at h
  | tuple ds =>
    cases t with
    | tuple xs =>
      rw [conf] at h
      rw [isDynamicTok, isDynamic, dynAgreeList ds xs h]
    | bool b => simp [conf] at h
    | uint v => simp [conf] at h
    | int v => simp [conf] at h
    | address a => simp [conf] at h
    | fixedBytes bs => simp [conf] at h
    | bytes bs => simp [conf] at h
    | string bs => simp [conf] at h
    | array ys => simp [conf] at h
    | fixedArray ys => simp [conf] at h
termination_by (sizeOf t, 0)
theorem dynAgreeArr (t' : ParamType) (xs : List Token) (h : confArr t' xs = true) :
    anyDynTok xs = (isDynamic t' && decide (xs.length ≠ 0)) := by
  cases xs with
  | nil => simp [anyDynTok]
  | cons x xs =>
    obtain ⟨h1, h2⟩ := conf_and_arr h
    rw [anyDynTok, dynAgree t' x h1, dynAgreeArr t' xs h2]
    cases hd : isDynamic t' <;> simp [hd]
termination_by (sizeOf xs, 0)
theorem dynAgreeList (ds : List ParamType) (xs : List Token)
    (h : confList ds xs = true) : anyDynTok xs = anyDyn ds := by
  cases xs with
  | nil =>
    have := confList_nil_right h
    subst this
    simp [anyDynTok, anyDyn]
  | cons x xs =>
    cases ds with
    | nil => simp [confList] at h
    | cons d ds =>
      obtain ⟨h1, h2⟩ := conf_and_list h
      rw [anyDynTok, anyDyn, dynAgree d x h1, dynAgreeList ds xs h2]
termination_by (sizeOf xs, 1)
end

/-- The head region built by `encodeGo` has length `headsLen`. -/
theorem encodeGo_fst_length (ts : List Token) (off : Nat)
    (h : ∀ x ∈ ts, (encodeToken x).length = encLen x) :
    (encodeGo ts off).1.length = headsLen ts := by
  induction ts generalizing off with
  | nil => simp [encodeGo, headsLen]
  | cons t ts ih =>
    have ht := h t (by simp)
    have hts : ∀ x ∈ ts, (encodeToken x).length = encLen x :=
      fun x hx => h x (by simp [hx])
    rw [encodeGo, headsLen]
    by_cases hd : isDynamicTok t <;>
      simp [hd, wordOf_length, ht, ih _ hts]

/-- The tail region built by `encodeGo` has length `tailsLen`. -/
theorem encodeGo_snd_length (ts : List Token) (off : Nat)
    (h : ∀ x ∈ ts, (encodeToken x).length = encLen x) :
    (encodeGo ts off).2.length = tailsLen ts := by
  induction ts generalizing off with
  | nil => simp [encodeGo, tailsLen]
  | cons t ts ih =>
    have ht := h t (by simp)
    have hts : ∀ x ∈ ts, (encodeToken x).length = encLen x :=
      fun x hx => h x (by simp [hx])
    rw [encodeGo, tailsLen]
    by_cases hd : isDynamicTok t <;>
      simp [hd, ht, ih _ hts]

/-- `encode` produces `seqLen` bytes. -/
theorem encode_length (ts : List Token)
    (h : ∀ x ∈ ts, (encodeToken x).length = encLen x) :
    (encode ts).length = seqLen ts := by
  rw [encode, List.length_append, encodeGo_fst_length _ _ h,
    encodeGo_snd_length _ _ h, seqLen_eq_heads_tails]

mutual
/-- The encoding of a conforming token has exactly `encLen` bytes. -/
theorem encLenEq (d : ParamType) (t : Token) (h : conf d t = true) :
    (encodeToken t).length = encLen t := by
  cases d with
  | bool => cases t <;>
      simp_all [conf, encodeToken, encLen, wordOf_length, rightPad_length]
  | uint b => cases t <;>
      simp_all [conf, encodeToken, encLen, wordOf_length, rightPad_length]
  | int b => cases t <;>
      simp_all [conf, encodeToken, encLen, wordOf_length, rightPad_length]
  | address => cases t with
    | address a =>
      rw [conf, Bool.and_eq_true] at h
      have hlen : a.length = 20 := by simpa using h.1
      simp [encodeToken, encLen, hlen]
    | bool b => simp [conf] at h
    | uint v => simp [conf] at h
    | int v => simp [conf] at h
    | fixedBytes bs => simp [conf] at h
    | bytes bs => simp [conf] at h
    | string bs => simp [conf] at h
    | array ys => simp [conf] at h
    | fixedArray ys => simp [conf] at h
    | tuple ys => simp [conf] at h
  | fixedBytes n => cases t <;>
      simp_all [conf, encodeToken, encLen, wordOf_length, rightPad_length]
  | bytes => cases t <;>
      simp_all [conf, encodeToken, encLen, wordOf_length, rightPad_length]
  | string => cases t <;>
      simp_all [conf, encodeToken, encLen, wordOf_length, rightPad_length]
  | array t' => cases t with
    | array xs =>
      rw [conf, Bool.and_eq_true] at h
      rw [encodeToken, encLen, List.length_append, wordOf_length,
        encode_length xs (encLenArr t' xs h.1)]
    | bool b => simp [conf] at h
    | uint v => simp [conf] at h
    | int v => simp [conf] at h
    | address a => simp [conf] at h
    | fixedBytes bs => simp [conf] at h
    | bytes bs => simp [conf] at h
    | string bs => simp [conf] at h
    | fixedArray ys => simp [conf] at h
    | tuple ys => simp [conf] at h
  | fixedArray t' n => cases t with
    | fixedArray xs =>
      rw [conf, Bool.and_eq_true] at h
      rw [encodeToken, encLen, encode_length xs (encLenArr t' xs h.1)]
    | bool b => simp [conf] at h
    | uint v => simp [conf] at h
    | int v => simp [conf] at h
    | address a => simp [conf] at h
    | fixedBytes bs => simp [conf] at h
    | bytes bs => simp [conf] at h
    | string bs => simp [conf] at h
    | array ys => simp [conf] at h
    | tuple ys => simp [conf] at h
  | tuple ds => cases t with
    | tuple xs =>
      rw [conf] at h
      rw [encodeToken, encLen, encode_length xs (encLenList ds xs h)]
    | bool b => simp [conf] at h
    | uint v => simp [conf] at h
    | int v => simp [conf] at h
    | address a => simp [conf] at h
    | fixedBytes bs => simp [conf] at h
    | bytes bs => simp [conf] at h
    | string bs => simp [conf] at h
    | array ys => simp [conf] at h
    | fixedArray ys => simp [conf] at h
termination_by (sizeOf t, 0)
theorem encLenArr (t' : ParamType) (xs : List Token) (h : confArr t' xs = true) :
    ∀ x ∈ xs, (encodeToken x).length = encLen x := by
  cases xs with
  | nil => intro x hx; cases hx
  | cons y ys =>
    obtain ⟨h1, h2⟩ := conf_and_arr h
    intro x hx
    rcases List.mem_cons.mp hx with rfl | hx
    · exact encLenEq t' x h1
    · exact encLenArr t' ys h2 x hx
termination_by (sizeOf xs, 0)
theorem encLenList (ds : List ParamType) (xs : List Token)
    (h : confList ds xs = true) :
    ∀ x ∈ xs, (encodeToken x).length = encLen x := by
  cases xs with
  | nil => intro x hx; cases hx
  | cons y ys =>
    cases ds with
    | nil => simp [confList] at h
    | cons d ds =>
      obtain ⟨h1, h2⟩ := conf_and_list h
      intro x hx
      rcases List.mem_cons.mp hx with rfl | hx
      · exact encLenEq d x h1
      · exact encLenList ds ys h2 x hx
termination_by (sizeOf xs, 1)
end

theorem anyDynTok_eq_false {xs : List Token} :
    anyDynTok xs = false ↔ ∀ x ∈ xs, isDynamicTok x = false := by
  induction xs with
  | nil => simp [anyDynTok]
  | cons x xs ih => simp [anyDynTok, ih]

theorem anyDyn_eq_false {ds : List ParamType} :
    anyDyn ds = false ↔ ∀ d ∈ ds, isDynamic d = false := by
  induction ds with
  | nil => simp [anyDyn]
  | cons d ds ih => simp [anyDyn, ih]

/-- A sequence of static tokens encodes inline, with an empty tail, regardless
of the tail offset. -/
theorem encodeGo_static (xs : List Token) (off : Nat)
    (h : ∀ x ∈ xs, isDynamicTok x = false) :
    encodeGo xs off = (xs.flatMap encodeToken, []) := by
  induction xs generalizing off with
  | nil => simp [encodeGo]
  | cons x xs ih =>
    have hx := h x (by simp)
    rw [encodeGo, if_neg (by simp [hx])]
    rw [ih _ (fun y hy => h y (by simp [hy]))]
    simp [List.flatMap_cons]

theorem tailsLen_static {xs : List Token}
    (h : ∀ x ∈ xs, isDynamicTok x = false) : tailsLen xs = 0 := by
  induction xs with
  | nil => rfl
  | cons x xs ih =>
    rw [tailsLen, if_neg (by simp [h x (by simp)])]
    rw [ih (fun y hy => h y (by simp [hy]))]

mutual
/-- A static conforming token's encoded length is the descriptor's static size. -/
theorem staticLenEq (d : ParamType) (t : Token) (h : conf d t = true)
    (hs : isDynamic d = false) : encLen t = staticSize d := by
  cases d with
  | bool => cases t <;> simp_all [conf, encLen, staticSize]
  | uint b => cases t <;> simp_all [conf, encLen, staticSize]
  | int b => cases t <;> simp_all [conf, encLen, staticSize]
  | address => cases t <;> simp_all [conf, encLen, staticSize]
  | fixedBytes n =>
    cases t with
    | fixedBytes bs =>
      simp only [conf, Bool.and_eq_true, decide_eq_true_eq] at h
      obtain ⟨⟨⟨hl, h1⟩, h2⟩, _⟩ := h
      rw [encLen]
      have hss : staticSize (ParamType.fixedBytes n) = 32 := by simp [staticSize]
      rw [hss]
      subst hl
      simp only [pad32Len]
      omega
    | bool b => simp [conf] at h
    | uint v => simp [conf] at h
    | int v => simp [conf] at h
    | address a => simp [conf] at h
    | bytes bs => simp [conf] at h
    | string bs => simp [conf] at h
    | array ys => simp [conf] at h
    | fixedArray ys => simp [conf] at h
    | tuple ys => simp [conf] at h
  | bytes => simp [isDynamic] at hs
  | string => simp [isDynamic] at hs
  | array t' => simp [isDynamic] at hs
  | fixedArray t' n =>
    cases t with
    | fixedArray xs =>
      simp only [conf, Bool.and_eq_true, decide_eq_true_eq] at h
      obtain ⟨hc, hlen⟩ := h
      rw [encLen]
      have hss : staticSize (ParamType.fixedArray t' n) = n * staticSize t' := by
        simp [staticSize]
      rw [hss]
      by_cases hn : n = 0
      · subst hn
        have : xs = [] := List.eq_nil_of_length_eq_zero hlen
        subst this
        simp [seqLen]
      · have ht' : isDynamic t' = false := by
          cases hb : isDynamic t'
          · rfl
          · exfalso
            rw [isDynamic, hb] at hs
            simp at hs
            exact hn hs
        rw [staticLenArr t' xs hc ht', hlen]
    | bool b => simp [conf] at h
    | uint v => simp [conf] at h
    | int v => simp [conf] at h
    | address a => simp [conf] at h
    | fixedBytes bs => simp [conf] at h
    | bytes bs => simp [conf] at h
    | string bs => simp [conf] at h
    | array ys => simp [conf] at h
    | tuple ys => simp [conf] at h
  | tuple ds =>
    cases t with
    | tuple xs =>
      rw [conf] at h
      rw [isDynamic] at hs
      rw [encLen]
      have hss : staticSize (ParamType.tuple ds) = sumStatic ds := by
        simp [staticSize]
      rw [hss]
      exact staticLenList ds xs h hs
    | bool b => simp [conf] at h
    | uint v => simp [conf] at h
    | int v => simp [conf] at h
    | address a => simp [conf] at h
    | fixedBytes bs => simp [conf] at h
    | bytes bs => simp [conf] at h
    | string bs => simp [conf] at h
    | array ys => simp [conf] at h
    | fixedArray ys => simp [conf] at h
termination_by (sizeOf t, 0)
theorem staticLenArr (t' : ParamType) (xs : List Token) (h : confArr t' xs = true)
    (hs : isDynamic t' = false) : seqLen xs = xs.length * staticSize t' := by
  cases xs with
  | nil => simp [seqLen]
  | cons x xs =>
    obtain ⟨h1, h2⟩ := conf_and_arr h
    rw [seqLen, dynAgree t' x h1, hs]
    simp only [Bool.false_eq_true, if_false]
    rw [staticLenEq t' x h1 hs, staticLenArr t' xs h2 hs]
    simp [List.length_cons]
    ring
termination_by (sizeOf xs, 0)
theorem staticLenList (ds : List ParamType) (xs : List Token)
    (h : confList ds xs = true) (hs : anyDyn ds = false) :
    seqLen xs = sumStatic ds := by
  cases xs with
  | nil =>
    have := confList_nil_right h
    subst this
    simp [seqLen, sumStatic]
  | cons x xs =>
    cases ds with
    | nil => simp [confList] at h
    | cons d ds =>
      obtain ⟨h1, h2⟩ := conf_and_list h
      rw [anyDyn, Bool.or_eq_false_iff] at hs
      rw [seqLen, sumStatic, dynAgree d x h1, hs.1]
      simp only [Bool.false_eq_true, if_false]
      rw [staticLenEq d x h1 hs.1, staticLenList ds xs h2 hs.2]
termination_by (sizeOf xs, 1)
end

mutual
/-- Every token encoding is a multiple of 32 bytes long (as a count). -/
theorem encLen_mod32 (t : Token) : encLen t % 32 = 0 := by
  cases t with
  | bool b => simp [encLen]
  | uint v => simp [encLen]
  | int v => simp [encLen]
  | address a => simp [encLen]
  | fixedBytes bs => simp [encLen, pad32Len_mod]
  | bytes bs =>
    rw [encLen]
    have := pad32Len_mod bs.length
    omega
  | string bs =>
    rw [encLen]
    have := pad32Len_mod bs.length
    omega
  | array xs =>
    rw [encLen]
    have := seqLen_mod32 xs
    omega
  | fixedArray xs => rw [encLen]; exact seqLen_mod32 xs
  | tuple xs => rw [encLen]; exact seqLen_mod32 xs
termination_by (sizeOf t, 0)
theorem seqLen_mod32 (ts : List Token) : seqLen ts % 32 = 0 := by
  cases ts with
  | nil => simp [seqLen]
  | cons t ts =>
    rw [seqLen]
    have h1 := encLen_mod32 t
    have h2 := seqLen_mod32 ts
    by_cases hd : isDynamicTok t <;> simp [hd] <;> omega
termination_by (sizeOf ts, 1)
end

theorem rightPad_lt {bs : List Nat} (h : ∀ b ∈ bs, b < 256) :
    ∀ b ∈ rightPad bs, b < 256 := by
  intro b hb
  rcases List.mem_append.mp hb with hb | hb
  · exact h b hb
  · have := List.eq_of_mem_replicate hb
    omega

/-- Heads and tails consist of in-range bytes when every element encodes to
in-range bytes. -/
theorem encodeGo_lt (ts : List Token) (off : Nat)
    (h : ∀ x ∈ ts, ∀ b ∈ encodeToken x, b < 256) :
    (∀ b ∈ (encodeGo ts off).1, b < 256) ∧ (∀ b ∈ (encodeGo ts off).2, b < 256) := by
  induction ts generalizing off with
  | nil => simp [encodeGo]
  | cons t ts ih =>
    have ht := h t (by simp)
    have hts : ∀ x ∈ ts, ∀ b ∈ encodeToken x, b < 256 :=
      fun x hx => h x (by simp [hx])
    rw [encodeGo]
    by_cases hd : isDynamicTok t
    · rw [if_pos hd]
      obtain ⟨ih1, ih2⟩ := ih (off + encLen t) hts
      constructor
      · intro b hb
        rcases List.mem_append.mp hb with hb | hb
        · exact wordOf_lt off b hb
        · exact ih1 b hb
      · intro b hb
        rcases List.mem_append.mp hb with hb | hb
        · exact ht b hb
        · exact ih2 b hb
    · rw [if_neg hd]
      obtain ⟨ih1, ih2⟩ := ih off hts
      constructor
      · intro b hb
        rcases List.mem_append.mp hb with hb | hb
        · exact ht b hb
        · exact ih1 b hb
      · exact ih2

theorem encode_lt (ts : List Token)
    (h : ∀ x ∈ ts, ∀ b ∈ encodeToken x, b < 256) :
    ∀ b ∈ encode ts, b < 256 := by
  intro b hb
  rw [encode] at hb
  obtain ⟨h1, h2⟩ := encodeGo_lt ts (headsLen ts) h
  rcases List.mem_append.mp hb with hb | hb
  · exact h1 b hb
  · exact h2 b hb

mutual
/-- A conforming token encodes to in-range bytes. -/
theorem encodeToken_lt (d : ParamType) (t : Token) (h : conf d t = true) :
    ∀ b ∈ encodeToken t, b < 256 := by
  cases d with
  | bool =>
    cases t with
    | bool b2 => rw [encodeToken]; exact wordOf_lt _
    | uint v => simp [conf] at h
    | int v => simp [conf] at h
    | address a => simp [conf] at h
    | fixedBytes bs => simp [conf] at h
    | bytes bs => simp [conf] at h
    | string bs => simp [conf] at h
    | array ys => simp [conf] at h
    | fixedArray ys => simp [conf] at h
    | tuple ys => simp [conf] at h
  | uint b =>
    cases t with
    | uint v => rw [encodeToken]; exact wordOf_lt _
    | bool b2 => simp [conf] at h
    | int v => simp [conf] at h
    | address a => simp [conf] at h
    | fixedBytes bs => simp [conf] at h
    | bytes bs => simp [conf] at h
    | string bs => simp [conf] at h
    | array ys => simp [conf] at h
    | fixedArray ys => simp [conf] at h
    | tuple ys => simp [conf] at h
  | int b =>
    cases t with
    | int v => rw [encodeToken]; exact wordOf_lt _
    | bool b2 => simp [conf] at h
    | uint v => simp [conf] at h
    | address a => simp [conf] at h
    | fixedBytes bs => simp [conf] at h
    | bytes bs => simp [conf] at h
    | string bs => simp [conf] at h
    | array ys => simp [conf] at h
    | fixedArray ys => simp [conf] at h
    | tuple ys => simp [conf] at h
  | address =>
    cases t with
    | address a =>
      simp only [conf, Bool.and_eq_true, decide_eq_true_eq] at h
      rw [encodeToken]
      intro b hb
      rcases List.mem_append.mp hb with hb | hb
      · have := List.eq_of_mem_replicate hb
        omega
      · exact (allLt256_iff a).mp h.2 b hb
    | bool b => simp [conf] at h
    | uint v => simp [conf] at h
    | int v => simp [conf] at h
    | fixedBytes bs => simp [conf] at h
    | bytes bs => simp [conf] at h
    | string bs => simp [conf] at h
    | array ys => simp [conf] at h
    | fixedArray ys => simp [conf] at h
    | tuple ys => simp [conf] at h
  | fixedBytes n =>
    cases t with
    | fixedBytes bs =>
      simp only [conf, Bool.and_eq_true, decide_eq_true_eq] at h
      rw [encodeToken]
      exact rightPad_lt ((allLt256_iff bs).mp h.2)
    | bool b => simp [conf] at h
    | uint v => simp [conf] at h
    | int v => simp [conf] at h
    | address a => simp [conf] at h
    | bytes bs => simp [conf] at h
    | string bs => simp [conf] at h
    | array ys => simp [conf] at h
    | fixedArray ys => simp [conf] at h
    | tuple ys => simp [conf] at h
  | bytes =>
    cases t with
    | bytes bs =>
      rw [conf] at h
      rw [encodeToken]
      intro b hb
      rcases List.mem_append.mp hb with hb | hb
      · exact wordOf_lt _ b hb
      · exact rightPad_lt ((allLt256_iff bs).mp h) b hb
    | bool b => simp [conf] at h
    | uint v => simp [conf] at h
    | int v => simp [conf] at h
    | address a => simp [conf] at h
    | fixedBytes bs => simp [conf] at h
    | string bs => simp [conf] at h
    | array ys => simp [conf] at h
    | fixedArray ys => simp [conf] at h
    | tuple ys => simp [conf] at h
  | string =>
    cases t with
    | string bs =>
      rw [conf] at h
      rw [encodeToken]
      intro b hb
      rcases List.mem_append.mp hb with hb | hb
      · exact wordOf_lt _ b hb
      · exact rightPad_lt ((allLt256_iff bs).mp h) b hb
    | bool b => simp [conf] at h
    | uint v => simp [conf] at h
    | int v => simp [conf] at h
    | address a => simp [conf] at h
    | fixedBytes bs => simp [conf] at h
    | bytes bs => simp [conf] at h
    | array ys => simp [conf] at h
    | fixedArray ys => simp [conf] at h
    | tuple ys => simp [conf] at h
  | array t' =>
    cases t with
    | array xs =>
      simp only [conf, Bool.and_eq_true, decide_eq_true_eq] at h
      rw [encodeToken]
      intro b hb
      rcases List.mem_append.mp hb with hb | hb
      · exact wordOf_lt _ b hb
      · exact encode_lt xs (encodeArr_lt t' xs h.1) b hb
    | bool b => simp [conf] at h
    | uint v => simp [conf] at h
    | int v => simp [conf] at h
    | address a => simp [conf] at h
    | fixedBytes bs => simp [conf] at h
    | bytes bs => simp [conf] at h
    | string bs => simp [conf] at h
    | fixedArray ys => simp [conf] at h
    | tuple ys => simp [conf] at h
  | fixedArray t' n =>
    cases t with
    | fixedArray xs =>
      simp only [conf, Bool.and_eq_true, decide_eq_true_eq] at h
      rw [encodeToken]
      exact encode_lt xs (encodeArr_lt t' xs h.1)
    | bool b => simp [conf] at h
    | uint v => simp [conf] at h
    | int v => simp [conf] at h
    | address a => simp [conf] at h
    | fixedBytes bs => simp [conf] at h
    | bytes bs => simp [conf] at h
    | string bs => simp [conf] at h
    | array ys => simp [conf] at h
    | tuple ys => simp [conf] at h
  | tuple ds =>
    cases t with
    | tuple xs =>
      rw [conf] at h
      rw [encodeToken]
      exact encode_lt xs (encodeList_lt ds xs h)
    | bool b => simp [conf] at h
    | uint v => simp [conf] at h
    | int v => simp [conf] at h
    | address a => simp [conf] at h
    | fixedBytes bs => simp [conf] at h
    | bytes bs => simp [conf] at h
    | string bs => simp [conf] at h
    | array ys => simp [conf] at h
    | fixedArray ys => simp [conf] at h
termination_by (sizeOf t, 0)
theorem encodeArr_lt (t' : ParamType) (xs : List Token) (h : confArr t' xs = true) :
    ∀ x ∈ xs, ∀ b ∈ encodeToken x, b < 256 := by
  cases xs with
  | nil => intro x hx; cases hx
  | cons y ys =>
    obtain ⟨h1, h2⟩ := conf_and_arr h
    intro x hx
    rcases List.mem_cons.mp hx with rfl | hx
    · exact encodeToken_lt t' x h1
    · exact encodeArr_lt t' ys h2 x hx
termination_by (sizeOf xs, 0)
theorem encodeList_lt (ds : List ParamType) (xs : List Token)
    (h : confList ds xs = true) :
    ∀ x ∈ xs, ∀ b ∈ encodeToken x, b < 256 := by
  cases xs with
  | nil => intro x hx; cases hx
  | cons y ys =>
    cases ds with
    | nil => simp [confList] at h
    | cons d ds =>
      obtain ⟨h1, h2⟩ := conf_and_list h
      intro x hx
      rcases List.mem_cons.mp hx with rfl | hx
      · exact encodeToken_lt d x h1
      · exact encodeList_lt ds ys h2 x hx
termination_by (sizeOf xs, 1)
end

/-! ## Frame-prefix reasoning -/

/-- `content` occurs in `frame` starting at byte position `pos`. -/
def prefixAt (frame : List Nat) (pos : Nat) (content : List Nat) : Prop :=
  ∃ r, List.drop pos frame = content ++ r

theorem prefixAt_nil (frame : List Nat) (pos : Nat) : prefixAt frame pos [] :=
  ⟨frame.drop pos, by simp⟩

theorem prefixAt_append {frame : List Nat} {pos : Nat} {xs ys : List Nat}
    (h : prefixAt frame pos (xs ++ ys)) :
    prefixAt frame pos xs ∧ prefixAt frame (pos + xs.length) ys := by
  obtain ⟨r, hr⟩ := h
  constructor
  · exact ⟨ys ++ r, by rw [hr, List.append_assoc]⟩
  · refine ⟨r, ?_⟩
    have hd : List.drop (pos + xs.length) frame
        = List.drop xs.length (List.drop pos frame) := by
      rw [List.drop_drop, Nat.add_comm]
    rw [hd, hr, List.append_assoc, List.drop_left]

theorem prefixAt_bound {frame : List Nat} {pos : Nat} {xs : List Nat}
    (h : prefixAt frame pos xs) (hx : 0 < xs.length) :
    pos + xs.length ≤ frame.length := by
  obtain ⟨r, hr⟩ := h
  have hl := congrArg List.length hr
  simp only [List.length_drop, List.length_append] at hl
  omega

theorem prefixAt_take {frame : List Nat} {pos : Nat} {xs : List Nat}
    (h : prefixAt frame pos xs) :
    (List.drop pos frame).take xs.length = xs := by
  obtain ⟨r, hr⟩ := h
  rw [hr, List.take_left]

theorem readWord_of_prefixAt {frame : List Nat} {pos v : Nat}
    (h : prefixAt frame pos (wordOf v)) :
    readWord frame pos = some (v % 2 ^ 256) := by
  have hb := prefixAt_bound h (by rw [wordOf_length]; norm_num)
  rw [wordOf_length] at hb
  have ht := prefixAt_take h
  rw [wordOf_length] at ht
  rw [readWord, if_pos hb, ht, beToNat_wordOf]

theorem prefixAt_drop0 {frame : List Nat} {pos : Nat} {xs : List Nat}
    (h : prefixAt frame pos xs) : prefixAt (frame.drop pos) 0 xs := by
  obtain ⟨r, hr⟩ := h
  exact ⟨r, by simpa using hr⟩

theorem readWord_of_prefixAt_lt {frame : List Nat} {pos v : Nat}
    (h : prefixAt frame pos (wordOf v)) (hv : v < 2 ^ 256) :
    readWord frame pos = some v := by
  rw [readWord_of_prefixAt h, Nat.mod_eq_of_lt hv]

theorem encodeGo_cons_dyn (t : Token) (ts : List Token) (off : Nat)
    (hd : isDynamicTok t = true) :
    encodeGo (t :: ts) off =
      (wordOf off ++ (encodeGo ts (off + encLen t)).1,
       encodeToken t ++ (encodeGo ts (off + encLen t)).2) := by
  rw [encodeGo, if_pos hd]

theorem encodeGo_cons_stat (t : Token) (ts : List Token) (off : Nat)
    (hd : isDynamicTok t = false) :
    encodeGo (t :: ts) off =
      (encodeToken t ++ (encodeGo ts off).1, (encodeGo ts off).2) := by
  rw [encodeGo, if_neg (by simp [hd])]

theorem decodeGo_cons_dyn (d : ParamType) (ds : List ParamType)
    (frame : List Nat) (cursor : Nat) (hd : isDynamic d = true) :
    decodeGo (d :: ds) frame cursor =
      (readWord frame cursor).bind fun off =>
      (decodeDyn d (frame.drop off)).bind fun x =>
      (decodeGo ds frame (cursor + 32)).map fun xs => x :: xs := by
  rw [decodeGo, if_pos hd]

theorem decodeGo_cons_stat (d : ParamType) (ds : List ParamType)
    (frame : List Nat) (cursor : Nat) (hd : isDynamic d = false) :
    decodeGo (d :: ds) frame cursor =
      (decodeStat d frame cursor).bind fun x =>
      (decodeGo ds frame (cursor + staticSize d)).map fun xs => x :: xs := by
  rw [decodeGo, if_neg (by simp [hd])]

theorem decodeElems_succ_dyn (t : ParamType) (n : Nat) (frame : List Nat)
    (cursor : Nat) (hd : isDynamic t = true) :
    decodeElems t (n + 1) frame cursor =
      (readWord frame cursor).bind fun off =>
      (decodeDyn t (frame.drop off)).bind fun x =>
      (decodeElems t n frame (cursor + 32)).map fun xs => x :: xs := by
  rw [decodeElems, if_pos hd]

theorem decodeElems_succ_stat (t : ParamType) (n : Nat) (frame : List Nat)
    (cursor : Nat) (hd : isDynamic t = false) :
    decodeElems t (n + 1) frame cursor =
      (decodeStat t frame cursor).bind fun x =>
      (decodeElems t n frame (cursor + staticSize t)).map fun xs => x :: xs := by
  rw [decodeElems, if_neg (by simp [hd])]

/-- Two's-complement round trip for a 256-bit word. -/
theorem int_word_roundtrip {v : Int} (h1 : -(2 ^ 255 : Int) ≤ v)
    (h2 : v < (2 ^ 255 : Int)) :
    (if Int.toNat (v % (2 ^ 256)) < 2 ^ 255
      then (Int.toNat (v % (2 ^ 256)) : Int)
      else (Int.toNat (v % (2 ^ 256)) : Int) - 2 ^ 256) = v := by
  have hpow : (2 : Int) ^ 256 = 2 ^ 255 * 2 := by ring
  rcases le_or_lt 0 v with hv | hv
  · have hlt : v < 2 ^ 256 := by
      rw [hpow]
      nlinarith
    have hemod : v % (2 ^ 256) = v := Int.emod_eq_of_lt hv hlt
    rw [hemod]
    have ht : ((v.toNat : Nat) : Int) = v := Int.toNat_of_nonneg hv
    have hcond : v.toNat < 2 ^ 255 := by
      have hc : (v.toNat : Int) < (2 : Int) ^ 255 := by rw [ht]; exact h2
      exact_mod_cast hc
    rw [if_pos hcond, ht]
  · have h0 : 0 ≤ v + 2 ^ 256 := by
      rw [hpow]
      nlinarith
    have hlt : v + 2 ^ 256 < 2 ^ 256 := by linarith
    have hemod : v % (2 ^ 256) = v + 2 ^ 256 := by
      have hstep : (v + 2 ^ 256 * 1) % (2 ^ 256) = v % (2 ^ 256) :=
        Int.add_mul_emod_self_left v (2 ^ 256) 1
      have hv2 : (v + 2 ^ 256 * 1) = v + 2 ^ 256 := by ring
      rw [hv2] at hstep
      rw [← hstep, Int.emod_eq_of_lt h0 hlt]
    rw [hemod]
    have ht : (((v + 2 ^ 256).toNat : Nat) : Int) = v + 2 ^ 256 :=
      Int.toNat_of_nonneg h0
    have hge : (2 : Int) ^ 255 ≤ v + 2 ^ 256 := by
      rw [hpow]
      linarith
    have hcond : ¬ ((v + 2 ^ 256).toNat < 2 ^ 255) := by
      intro hcl
      have hc : ((v + 2 ^ 256).toNat : Int) < (2 : Int) ^ 255 := by exact_mod_cast hcl
      rw [ht] at hc
      linarith
    rw [if_neg hcond, ht]
    ring

/-! ## The round-trip law -/

mutual
/-- Decoding a static conforming token inline at its encoded position
recovers it. -/
theorem statRound (d : ParamType) (t : Token) (frame : List Nat) (pos : Nat)
    (h : conf d t = true) (hs : isDynamic d = false)
    (hp : prefixAt frame pos (encodeToken t)) :
    decodeStat d frame pos = some t := by
  cases d with
  | bool =>
    cases t with
    | bool b =>
      cases b
      · simp only [encodeToken, Bool.false_eq_true, if_false] at hp
        rw [decodeStat, readWord_of_prefixAt hp]
        simp
      · simp only [encodeToken, if_true] at hp
        rw [decodeStat, readWord_of_prefixAt hp]
        have h1 : (1:Nat) % 2 ^ 256 = 1 := Nat.mod_eq_of_lt (by norm_num)
        rw [h1]
        simp
    | uint v => simp [conf] at h
    | int v => simp [conf] at h
    | address a => simp [conf] at h
    | fixedBytes bs => simp [conf] at h
    | bytes bs => simp [conf] at h
    | string bs => simp [conf] at h
    | array ys => simp [conf] at h
    | fixedArray ys => simp [conf] at h
    | tuple ys => simp [conf] at h
  | uint b =>
    cases t with
    | uint v =>
      simp only [conf, Bool.and_eq_true, decide_eq_true_eq] at h
      rw [encodeToken] at hp
      have hv : v < 2 ^ 256 := by
        have hle : (2:Nat) ^ b ≤ 2 ^ 256 := Nat.pow_le_pow_right (by norm_num) h.1
        omega
      rw [decodeStat, readWord_of_prefixAt_lt hp hv]
      rfl
    | bool b2 => simp [conf] at h
    | int v => simp [conf] at h
    | address a => simp [conf] at h
    | fixedBytes bs => simp [conf] at h
    | bytes bs => simp [conf] at h
    | string bs => simp [conf] at h
    | array ys => simp [conf] at h
    | fixedArray ys => simp [conf] at h
    | tuple ys => simp [conf] at h
  | int b =>
    cases t with
    | int v =>
      simp only [conf, Bool.and_eq_true, decide_eq_true_eq] at h
      obtain ⟨⟨⟨hb0, hb256⟩, hv1⟩, hv2⟩ := h
      have hble : (2:Int) ^ (b - 1) ≤ 2 ^ 255 :=
        pow_le_pow_right₀ (by norm_num) (by omega)
      have h1' : -(2 ^ 255 : Int) ≤ v := le_trans (neg_le_neg hble) hv1
      have h2' : v < (2 ^ 255 : Int) := lt_of_lt_of_le hv2 hble
      rw [encodeToken] at hp
      have hm : (0:Int) < 2 ^ 256 := by positivity
      have he0 : 0 ≤ v % 2 ^ 256 := Int.emod_nonneg v (by positivity)
      have helt : v % 2 ^ 256 < 2 ^ 256 := Int.emod_lt_of_pos v hm
      have hcast : ((2 ^ 256 : Nat) : Int) = (2:Int) ^ 256 := by norm_cast
      have hwlt : Int.toNat (v % 2 ^ 256) < 2 ^ 256 := by omega
      rw [decodeStat, readWord_of_prefixAt_lt hp hwlt, Option.map_some',
        int_word_roundtrip h1' h2']
    | bool b2 => simp [conf] at h
    | uint v => simp [conf] at h
    | address a => simp [conf] at h
    | fixedBytes bs => simp [conf] at h
    | bytes bs => simp [conf] at h
    | string bs => simp [conf] at h
    | array ys => simp [conf] at h
    | fixedArray ys => simp [conf] at h
    | tuple ys => simp [conf] at h
  | address =>
    cases t with
    | address a =>
      simp only [conf, Bool.and_eq_true, decide_eq_true_eq] at h
      obtain ⟨hlen, _⟩ := h
      rw [encodeToken] at hp
      have hlen32 : (List.replicate 12 0 ++ a).length = 32 := by simp [hlen]
      have hb32 : pos + 32 ≤ frame.length := by
        have hx := prefixAt_bound hp (by rw [hlen32]; norm_num)
        rw [hlen32] at hx
        exact hx
      rw [decodeStat, if_pos hb32]
      have ht := prefixAt_take hp
      rw [hlen32] at ht
      rw [ht]
      have hdrop : (List.replicate 12 (0:Nat) ++ a).drop 12 = a := by
        have hdl := List.drop_left (List.replicate 12 (0:Nat)) a
        rw [List.length_replicate] at hdl
        exact hdl
      rw [hdrop]
    | bool b2 => simp [conf] at h
    | uint v => simp [conf] at h
    | int v => simp [conf] at h
    | fixedBytes bs => simp [conf] at h
    | bytes bs => simp [conf] at h
    | string bs => simp [conf] at h
    | array ys => simp [conf] at h
    | fixedArray ys => simp [conf] at h
    | tuple ys => simp [conf] at h
  | fixedBytes n =>
    cases t with
    | fixedBytes bs =>
      simp only [conf, Bool.and_eq_true, decide_eq_true_eq] at h
      obtain ⟨⟨⟨hlen, hn1⟩, hn32⟩, _⟩ := h
      rw [encodeToken] at hp
      have hl32 : (rightPad bs).length = 32 := by
        rw [rightPad_length, hlen]
        simp only [pad32Len]
        omega
      have hb32 : pos + 32 ≤ frame.length := by
        have hx := prefixAt_bound hp (by rw [hl32]; norm_num)
        rw [hl32] at hx
        exact hx
      rw [decodeStat, if_pos hb32]
      have htake : (frame.drop pos).take n = bs := by
        obtain ⟨r, hr⟩ := hp
        rw [hr, rightPad, List.append_assoc, ← hlen, List.take_left]
      rw [htake]
    | bool b2 => simp [conf] at h
    | uint v => simp [conf] at h
    | int v => simp [conf] at h
    | address a => simp [conf] at h
    | bytes bs => simp [conf] at h
    | string bs => simp [conf] at h
    | array ys => simp [conf] at h
    | fixedArray ys => simp [conf] at h
    | tuple ys => simp [conf] at h
  | bytes => simp [isDynamic] at hs
  | string => simp [isDynamic] at hs
  | array t' => simp [isDynamic] at hs
  | fixedArray t' n =>
    cases t with
    | fixedArray xs =>
      simp only [conf, Bool.and_eq_true, decide_eq_true_eq] at h
      obtain ⟨hc, hlen⟩ := h
      rw [isDynamic] at hs
      have hstat : ∀ x ∈ xs, isDynamicTok x = false := by
        apply anyDynTok_eq_false.mp
        rw [dynAgreeArr t' xs hc, hlen]
        exact hs
      rw [encodeToken] at hp
      simp only [encode, encodeGo_static xs _ hstat, List.append_nil] at hp
      have helems := elemsRound t' xs frame pos 0 hc
        (by rw [encodeGo_static xs 0 hstat]; exact hp)
        (by rw [encodeGo_static xs 0 hstat]; exact prefixAt_nil frame 0)
        (by rw [tailsLen_static hstat]; norm_num)
      rw [decodeStat, ← hlen, helems]
      rfl
    | bool b2 => simp [conf] at h
    | uint v => simp [conf] at h
    | int v => simp [conf] at h
    | address a => simp [conf] at h
    | fixedBytes bs => simp [conf] at h
    | bytes bs => simp [conf] at h
    | string bs => simp [conf] at h
    | array ys => simp [conf] at h
    | tuple ys => simp [conf] at h
  | tuple ds' =>
    cases t with
    | tuple xs =>
      rw [conf] at h
      rw [isDynamic] at hs
      have hstat : ∀ x ∈ xs, isDynamicTok x = false := by
        apply anyDynTok_eq_false.mp
        rw [dynAgreeList ds' xs h]
        exact hs
      rw [encodeToken] at hp
      simp only [encode, encodeGo_static xs _ hstat, List.append_nil] at hp
      have hgo := goRound ds' xs frame pos 0 h
        (by rw [encodeGo_static xs 0 hstat]; exact hp)
        (by rw [encodeGo_static xs 0 hstat]; exact prefixAt_nil frame 0)
        (by rw [tailsLen_static hstat]; norm_num)
      rw [decodeStat, hgo]
      rfl
    | bool b2 => simp [conf] at h
    | uint v => simp [conf] at h
    | int v => simp [conf] at h
    | address a => simp [conf] at h
    | fixedBytes bs => simp [conf] at h
    | bytes bs => simp [conf] at h
    | string bs => simp [conf] at h
    | array ys => simp [conf] at h
    | fixedArray ys => simp [conf] at h
termination_by (sizeOf t, 0)
/-- Decoding a dynamic conforming token at the start of its own frame
recovers it. -/
theorem dynRound (d : ParamType) (t : Token) (frame : List Nat)
    (h : conf d t = true) (hs : isDynamic d = true) (hb : encLen t < 2 ^ 256)
    (hp : prefixAt frame 0 (encodeToken t)) :
    decodeDyn d frame = some t := by
  cases d with
  | bool => simp [isDynamic] at hs
  | uint b => simp [isDynamic] at hs
  | int b => simp [isDynamic] at hs
  | address => simp [isDynamic] at hs
  | fixedBytes n => simp [isDynamic] at hs
  | bytes =>
    cases t with
    | bytes bs =>
      rw [encodeToken] at hp
      rw [encLen] at hb
      have hpg := pad32Len_ge bs.length
      have hblen : bs.length < 2 ^ 256 := by omega
      obtain ⟨hw, hr⟩ := prefixAt_append hp
      rw [wordOf_length, Nat.zero_add] at hr
      rw [decodeDyn, readWord_of_prefixAt_lt hw hblen]
      simp only [Option.some_bind]
      have hcond : 32 + bs.length ≤ frame.length := by
        have hx := prefixAt_bound hp
          (by simp [wordOf_length, rightPad_length])
        simp only [List.length_append, wordOf_length, rightPad_length,
          Nat.zero_add] at hx
        omega
      rw [if_pos hcond]
      have htake : (frame.drop 32).take bs.length = bs := by
        obtain ⟨r, hrr⟩ := hr
        rw [hrr, rightPad, List.append_assoc, List.take_left]
      rw [htake]
    | bool b2 => simp [conf] at h
    | uint v => simp [conf] at h
    | int v => simp [conf] at h
    | address a => simp [conf] at h
    | fixedBytes bs => simp [conf] at h
    | string bs => simp [conf] at h
    | array ys => simp [conf] at h
    | fixedArray ys => simp [conf] at h
    | tuple ys => simp [conf] at h
  | string =>
    cases t with
    | string bs =>
      rw [encodeToken] at hp
      rw [encLen] at hb
      have hpg := pad32Len_ge bs.length
      have hblen : bs.length < 2 ^ 256 := by omega
      obtain ⟨hw, hr⟩ := prefixAt_append hp
      rw [wordOf_length, Nat.zero_add] at hr
      rw [decodeDyn, readWord_of_prefixAt_lt hw hblen]
      simp only [Option.some_bind]
      have hcond : 32 + bs.length ≤ frame.length := by
        have hx := prefixAt_bound hp
          (by simp [wordOf_length, rightPad_length])
        simp only [List.length_append, wordOf_length, rightPad_length,
          Nat.zero_add] at hx
        omega
      rw [if_pos hcond]
      have htake : (frame.drop 32).take bs.length = bs := by
        obtain ⟨r, hrr⟩ := hr
        rw [hrr, rightPad, List.append_assoc, List.take_left]
      rw [htake]
    | bool b2 => simp [conf] at h
    | uint v => simp [conf] at h
    | int v => simp [conf] at h
    | address a => simp [conf] at h
    | fixedBytes bs => simp [conf] at h
    | bytes bs => simp [conf] at h
    | array ys => simp [conf] at h
    | fixedArray ys => simp [conf] at h
    | tuple ys => simp [conf] at h
  | array t' =>
    cases t with
    | array xs =>
      simp only [conf, Bool.and_eq_true, decide_eq_true_eq] at h
      obtain ⟨hc, hcnt⟩ := h
      rw [encodeToken] at hp
      rw [encLen] at hb
      obtain ⟨hw, hr⟩ := prefixAt_append hp
      rw [wordOf_length, Nat.zero_add] at hr
      rw [decodeDyn, readWord_of_prefixAt_lt hw hcnt]
      simp only [Option.some_bind]
      have hpe := prefixAt_drop0 hr
      rw [encode] at hpe
      obtain ⟨hH, hT⟩ := prefixAt_append hpe
      have hEnc : ∀ x ∈ xs, (encodeToken x).length = encLen x := encLenArr t' xs hc
      rw [encodeGo_fst_length xs _ hEnc, Nat.zero_add] at hT
      have hst := seqLen_eq_heads_tails xs
      have helems := elemsRound t' xs (frame.drop 32) 0 (headsLen xs) hc hH hT
        (by omega)
      rw [helems]
      rfl
    | bool b2 => simp [conf] at h
    | uint v => simp [conf] at h
    | int v => simp [conf] at h
    | address a => simp [conf] at h
    | fixedBytes bs => simp [conf] at h
    | bytes bs => simp [conf] at h
    | string bs => simp [conf] at h
    | fixedArray ys => simp [conf] at h
    | tuple ys => simp [conf] at h
  | fixedArray t' n =>
    cases t with
    | fixedArray xs =>
      simp only [conf, Bool.and_eq_true, decide_eq_true_eq] at h
      obtain ⟨hc, hlen⟩ := h
      rw [encodeToken] at hp
      rw [encLen] at hb
      rw [encode] at hp
      obtain ⟨hH, hT⟩ := prefixAt_append hp
      have hEnc : ∀ x ∈ xs, (encodeToken x).length = encLen x := encLenArr t' xs hc
      rw [encodeGo_fst_length xs _ hEnc, Nat.zero_add] at hT
      have hst := seqLen_eq_heads_tails xs
      have helems := elemsRound t' xs frame 0 (headsLen xs) hc hH hT (by omega)
      rw [decodeDyn, ← hlen, helems]
      rfl
    | bool b2 => simp [conf] at h
    | uint v => simp [conf] at h
    | int v => simp [conf] at h
    | address a => simp [conf] at h
    | fixedBytes bs => simp [conf] at h
    | bytes bs => simp [conf] at h
    | string bs => simp [conf] at h
    | array ys => simp [conf] at h
    | tuple ys => simp [conf] at h
  | tuple ds' =>
    cases t with
    | tuple xs =>
      rw [conf] at h
      rw [encodeToken] at hp
      rw [encLen] at hb
      rw [encode] at hp
      obtain ⟨hH, hT⟩ := prefixAt_append hp
      have hEnc : ∀ x ∈ xs, (encodeToken x).length = encLen x := encLenList ds' xs h
      rw [encodeGo_fst_length xs _ hEnc, Nat.zero_add] at hT
      have hst := seqLen_eq_heads_tails xs
      have hgo := goRound ds' xs frame 0 (headsLen xs) h hH hT (by omega)
      rw [decodeDyn, hgo]
      rfl
    | bool b2 => simp [conf] at h
    | uint v => simp [conf] at h
    | int v => simp [conf] at h
    | address a => simp [conf] at h
    | fixedBytes bs => simp [conf] at h
    | bytes bs => simp [conf] at h
    | string bs => simp [conf] at h
    | array ys => simp [conf] at h
    | fixedArray ys => simp [conf] at h
termination_by (sizeOf t, 0)
/-- Decoding a head/tail sequence of conforming tokens recovers them. -/
theorem goRound (ds : List ParamType) (ts : List Token) (frame : List Nat)
    (cursor tailOff : Nat) (h : confList ds ts = true)
    (hH : prefixAt frame cursor (encodeGo ts tailOff).1)
    (hT : prefixAt frame tailOff (encodeGo ts tailOff).2)
    (hb : tailOff + tailsLen ts < 2 ^ 256) :
    decodeGo ds frame cursor = some ts := by
  cases ds with
  | nil =>
    cases ts with
    | nil => rw [decodeGo]
    | cons x xs => simp [confList] at h
  | cons d ds' =>
    cases ts with
    | nil => simp [confList] at h
    | cons t ts' =>
      obtain ⟨h1, h2⟩ := conf_and_list h
      have hda := dynAgree d t h1
      by_cases hd : isDynamic d = true
      · have hdt : isDynamicTok t = true := by rw [hda, hd]
        rw [encodeGo_cons_dyn t ts' tailOff hdt] at hH hT
        obtain ⟨hw, hH'⟩ := prefixAt_append hH
        rw [wordOf_length] at hH'
        obtain ⟨hE, hT'⟩ := prefixAt_append hT
        rw [encLenEq d t h1] at hT'
        have htl : tailsLen (t :: ts') = encLen t + tailsLen ts' := by
          rw [tailsLen, hdt]
          simp
        rw [htl] at hb
        rw [decodeGo_cons_dyn d ds' frame cursor hd]
        rw [readWord_of_prefixAt_lt hw (by omega)]
        simp only [Option.some_bind]
        rw [dynRound d t (frame.drop tailOff) h1 hd (by omega) (prefixAt_drop0 hE)]
        simp only [Option.some_bind]
        rw [goRound ds' ts' frame (cursor + 32) (tailOff + encLen t) h2 hH' hT'
          (by omega)]
        rfl
      · have hdf : isDynamic d = false := by
          revert hd
          cases isDynamic d <;> simp
        have hdt : isDynamicTok t = false := by rw [hda, hdf]
        rw [encodeGo_cons_stat t ts' tailOff hdt] at hH hT
        obtain ⟨hE, hH'⟩ := prefixAt_append hH
        rw [encLenEq d t h1, staticLenEq d t h1 hdf] at hH'
        rw [decodeGo_cons_stat d ds' frame cursor hdf]
        rw [statRound d t frame cursor h1 hdf hE]
        simp only [Option.some_bind]
        have htl : tailsLen (t :: ts') = tailsLen ts' := by
          rw [tailsLen, hdt]
          simp
        rw [htl] at hb
        rw [goRound ds' ts' frame (cursor + staticSize d) tailOff h2 hH' hT hb]
        rfl
termination_by (sizeOf ts, 1)
/-- Decoding the elements of a uniform head/tail sequence recovers them. -/
theorem elemsRound (t' : ParamType) (xs : List Token) (frame : List Nat)
    (cursor tailOff : Nat) (h : confArr t' xs = true)
    (hH : prefixAt frame cursor (encodeGo xs tailOff).1)
    (hT : prefixAt frame tailOff (encodeGo xs tailOff).2)
    (hb : tailOff + tailsLen xs < 2 ^ 256) :
    decodeElems t' xs.length frame cursor = some xs := by
  cases xs with
  | nil => rw [List.length_nil, decodeElems]
  | cons t ts' =>
    obtain ⟨h1, h2⟩ := conf_and_arr h
    have hda := dynAgree t' t h1
    rw [List.length_cons]
    by_cases hd : isDynamic t' = true
    · have hdt : isDynamicTok t = true := by rw [hda, hd]
      rw [encodeGo_cons_dyn t ts' tailOff hdt] at hH hT
      obtain ⟨hw, hH'⟩ := prefixAt_append hH
      rw [wordOf_length] at hH'
      obtain ⟨hE, hT'⟩ := prefixAt_append hT
      rw [encLenEq t' t h1] at hT'
      have htl : tailsLen (t :: ts') = encLen t + tailsLen ts' := by
        rw [tailsLen, hdt]
        simp
      rw [htl] at hb
      rw [decodeElems_succ_dyn t' ts'.length frame cursor hd]
      rw [readWord_of_prefixAt_lt hw (by omega)]
      simp only [Option.some_bind]
      rw [dynRound t' t (frame.drop tailOff) h1 hd (by omega) (prefixAt_drop0 hE)]
      simp only [Option.some_bind]
      rw [elemsRound t' ts' frame (cursor + 32) (tailOff + encLen t) h2 hH' hT'
        (by omega)]
      rfl
    · have hdf : isDynamic t' = false := by
        revert hd
        cases isDynamic t' <;> simp
      have hdt : isDynamicTok t = false := by rw [hda, hdf]
      rw [encodeGo_cons_stat t ts' tailOff hdt] at hH hT
      obtain ⟨hE, hH'⟩ := prefixAt_append hH
      rw [encLenEq t' t h1, staticLenEq t' t h1 hdf] at hH'
      rw [decodeElems_succ_stat t' ts'.length frame cursor hdf]
      rw [statRound t' t frame cursor h1 hdf hE]
      simp only [Option.some_bind]
      have htl : tailsLen (t :: ts') = tailsLen ts' := by
        rw [tailsLen, hdt]
        simp
      rw [htl] at hb
      rw [elemsRound t' ts' frame (cursor + staticSize t') tailOff h2 hH' hT hb]
      rfl
termination_by (sizeOf xs, 1)
end

/-- The round-trip law at the codec level: decoding an encoding of conforming
tokens recovers exactly the tokens. -/
theorem decode_encode (ds : List ParamType) (ts : List Token)
    (h : confList ds ts = true) (hb : seqLen ts < 2 ^ 256) :
    decode ds (encode ts) = some ts := by
  rw [decode, encode]
  have hEnc : ∀ x ∈ ts, (encodeToken x).length = encLen x := encLenList ds ts h
  have hfst := encodeGo_fst_length ts (headsLen ts) hEnc
  have hst := seqLen_eq_heads_tails ts
  apply goRound ds ts _ 0 (headsLen ts) h
  · exact ⟨(encodeGo ts (headsLen ts)).2, by simp⟩
  · refine ⟨[], ?_⟩
    have hdl := List.drop_left (encodeGo ts (headsLen ts)).1
      (encodeGo ts (headsLen ts)).2
    rw [hfst] at hdl
    rw [hdl, List.append_nil]
  · omega

/-- The byte length of an encoding of conforming tokens is a multiple of 32. -/
theorem encode_length_mod32 (ds : List ParamType) (ts : List Token)
    (h : confList ds ts = true) : (encode ts).length % 32 = 0 := by
  rw [encode_length ts (encLenList ds ts h)]
  exact seqLen_mod32 ts

theorem confList_length {ds : List ParamType} {ts : List Token}
    (h : confList ds ts = true) : ds.length = ts.length := by
  induction ds generalizing ts with
  | nil =>
    have := confList_nil_left h
    subst this
    rfl
  | cons d ds ih =>
    cases ts with
    | nil => simp [confList] at h
    | cons t ts =>
      obtain ⟨h1, h2⟩ := conf_and_list h
      simp [ih h2]

/-! ## Type-string parsing (modelled from the spec)

Modelled from the spec: `ethabi`'s `Reader::read` — primitive names with
optional widths, array suffixes, tuples; malformed names and out-of-range
widths are `TypeError::Malformed`. -/

/-- Error kinds of the module, mirroring the spec's error design. -/
inductive AbiError where
  | typeError
  | tokenizeError
  | hexError
  | decodeError
  | fmtError
deriving DecidableEq

/-- All-decimal-digit text parsed to a number (`none` if empty or non-digit). -/
def parseNatDigits (cs : List Char) : Option Nat :=
  if !cs.isEmpty && cs.all (fun c => decide (48 ≤ c.toNat) && decide (c.toNat ≤ 57))
  then some (cs.foldl (fun a c => a * 10 + (c.toNat - 48)) 0)
  else none

/-- Split at top-level commas, tracking bracket/paren nesting depth. -/
def splitTopAux : List Char → Nat → List Char → List (List Char)
  | [], _, acc => [acc.reverse]
  | c :: rest, depth, acc =>
    if c = ',' ∧ depth = 0 then acc.reverse :: splitTopAux rest 0 []
    else if c = '[' ∨ c = '(' then splitTopAux rest (depth + 1) (c :: acc)
    else if c = ']' ∨ c = ')' then splitTopAux rest (depth - 1) (c :: acc)
    else splitTopAux rest depth (c :: acc)

def splitTop (cs : List Char) : List (List Char) :=
  splitTopAux cs 0 []

/-- Short-circuiting effectful map over a list (Rust's `collect::<Result<_,_>>`). -/
def mapE : List α → (α → Except AbiError β) → Except AbiError (List β)
  | [], _ => .ok []
  | a :: as, f =>
    match f a with
    | .error e => .error e
    | .ok b =>
      match mapE as f with
      | .error e => .error e
      | .ok bs => .ok (b :: bs)

/-- Index of the last occurrence of `c`, if any. -/
def lastIdxOf (c : Char) (cs : List Char) : Option Nat :=
  match cs.reverse.findIdx? (fun x => x = c) with
  | some i => some (cs.length - 1 - i)
  | none => none

/-- Primitive type names, with width validation per the spec. -/
def parsePrim (cs : List Char) : Except AbiError ParamType :=
  if cs = "bool".data then .ok .bool
  else if cs = "address".data then .ok .address
  else if cs = "string".data then .ok .string
  else if cs = "bytes".data then .ok .bytes
  else if cs.take 5 = "bytes".data then
    match parseNatDigits (cs.drop 5) with
    | some n => if 1 ≤ n ∧ n ≤ 32 then .ok (.fixedBytes n) else .error .typeError
    | none => .error .typeError
  else if cs = "uint".data then .ok (.uint 256)
  else if cs.take 4 = "uint".data then
    match parseNatDigits (cs.drop 4) with
    | some n =>
      if n % 8 = 0 ∧ 0 < n ∧ n ≤ 256 then .ok (.uint n) else .error .typeError
    | none => .error .typeError
  else if cs = "int".data then .ok (.int 256)
  else if cs.take 3 = "int".data then
    match parseNatDigits (cs.drop 3) with
    | some n =>
      if n % 8 = 0 ∧ 0 < n ∧ n ≤ 256 then .ok (.int n) else .error .typeError
    | none => .error .typeError
  else .error .typeError

/-- Modelled from the spec: the type-string grammar (fuel-indexed recursion;
the fuel is always sufficient for the call below). -/
def parseTypeF : Nat → List Char → Except AbiError ParamType
  | 0, _ => .error .typeError
  | fuel + 1, cs =>
    if cs = [] then .error .typeError
    else if cs.getLast? = some ']' then
      match lastIdxOf '[' cs with
      | none => .error .typeError
      | some i =>
        match parseTypeF fuel (cs.take i) with
        | .error e => .error e
        | .ok base =>
          if (cs.drop (i + 1)).dropLast = [] then .ok (.array base)
          else
            match parseNatDigits ((cs.drop (i + 1)).dropLast) with
            | some n => .ok (.fixedArray base n)
            | none => .error .typeError
    else if cs.head? = some '(' ∧ cs.getLast? = some ')' then
      if (cs.drop 1).dropLast = [] then .ok (.tuple [])
      else
        match mapE (splitTop ((cs.drop 1).dropLast)) (parseTypeF fuel) with
        | .ok ts => .ok (.tuple ts)
        | .error e => .error e
    else parsePrim cs

/-- Modelled from the spec: `Reader::read` on a type string. -/
def parseType (s : String) : Except AbiError ParamType :=
  parseTypeF (s.length + 1) s.data

mutual
/-- Well-formedness the parser guarantees: integer widths are multiples of 8
in `[8,256]`, fixed-bytes widths in `[1,32]`, recursively. -/
def wfType : ParamType → Bool
  | .uint b => decide (b % 8 = 0) && decide (0 < b) && decide (b ≤ 256)
  | .int b => decide (b % 8 = 0) && decide (0 < b) && decide (b ≤ 256)
  | .fixedBytes n => decide (1 ≤ n) && decide (n ≤ 32)
  | .array t => wfType t
  | .fixedArray t _ => wfType t
  | .tuple ds => wfList ds
  | _ => true
def wfList : List ParamType → Bool
  | [] => true
  | d :: ds => wfType d && wfList ds
end

theorem mapE_ok_length {α β : Type} {l : List α} {f : α → Except AbiError β}
    {bs : List β} (h : mapE l f = .ok bs) : bs.length = l.length := by
  induction l generalizing bs with
  | nil =>
    rw [mapE] at h
    cases h
    rfl
  | cons a as ih =>
    rw [mapE] at h
    match hfa : f a with
    | .error e => rw [hfa] at h; cases h
    | .ok b =>
      rw [hfa] at h
      match hm : mapE as f with
      | .error e => rw [hm] at h; cases h
      | .ok bs' =>
        rw [hm] at h
        cases h
        simp [ih hm]

theorem mapE_ok_forall {α β : Type} {l : List α} {f : α → Except AbiError β}
    {bs : List β} (h : mapE l f = .ok bs) :
    List.Forall₂ (fun a b => f a = .ok b) l bs := by
  induction l generalizing bs with
  | nil =>
    rw [mapE] at h
    cases h
    exact List.Forall₂.nil
  | cons a as ih =>
    rw [mapE] at h
    match hfa : f a with
    | .error e => rw [hfa] at h; cases h
    | .ok b =>
      rw [hfa] at h
      match hm : mapE as f with
      | .error e => rw [hm] at h; cases h
      | .ok bs' =>
        rw [hm] at h
        cases h
        exact List.Forall₂.cons hfa (ih hm)

theorem mapE_congr {α β : Type} {l : List α} {f g : α → Except AbiError β}
    (h : ∀ a ∈ l, f a = g a) : mapE l f = mapE l g := by
  induction l with
  | nil => rfl
  | cons a as ih =>
    rw [mapE, mapE, h a (by simp), ih (fun x hx => h x (by simp [hx]))]

theorem wfList_of_forall₂ {α : Type} {l : List α} {ds : List ParamType}
    {f : α → Except AbiError ParamType}
    (hfa : List.Forall₂ (fun a b => f a = .ok b) l ds)
    (hwf : ∀ a d, f a = .ok d → wfType d = true) : wfList ds = true := by
  induction hfa with
  | nil => rfl
  | cons hf _ ihf =>
    rw [wfList, Bool.and_eq_true]
    exact ⟨hwf _ _ hf, ihf⟩

theorem parsePrim_wf {cs : List Char} {d : ParamType}
    (h : parsePrim cs = .ok d) : wfType d = true := by
  unfold parsePrim at h
  split at h
  · cases h; simp [wfType]
  · split at h
    · cases h; simp [wfType]
    · split at h
      · cases h; simp [wfType]
      · split at h
        · cases h; simp [wfType]
        · split at h
          · split at h
            · split at h
              · cases h
                rename_i hcond
                simp [wfType]
                omega
              · cases h
            · cases h
          · split at h
            · cases h; simp [wfType]
            · split at h
              · split at h
                · split at h
                  · cases h
                    rename_i hcond
                    simp [wfType]
                    omega
                  · cases h
                · cases h
              · split at h
                · cases h; simp [wfType]
                · split at h
                  · split at h
                    · split at h
                      · cases h
                        rename_i hcond
                        simp [wfType]
                        omega
                      · cases h
                    · cases h
                  · cases h

theorem parseTypeF_wf (fuel : Nat) :
    ∀ cs d, parseTypeF fuel cs = .ok d → wfType d = true := by
  induction fuel with
  | zero => intro cs d h; rw [parseTypeF] at h; cases h
  | succ fuel ih =>
    intro cs d h
    rw [parseTypeF] at h
    split at h
    · cases h
    · split at h
      · split at h
        · cases h
        · rename_i i hli
          split at h
          · cases h
          · rename_i base hbase
            have hwb := ih _ _ hbase
            split at h
            · cases h
              simpa [wfType] using hwb
            · split at h
              · cases h
                simpa [wfType] using hwb
              · cases h
      · split at h
        · split at h
          · cases h
            simp [wfType, wfList]
          · split at h
            · rename_i ts hm
              cases h
              have hfa := mapE_ok_forall hm
              simp only [wfType]
              exact wfList_of_forall₂ hfa (fun a d2 hd2 => ih a d2 hd2)
            · cases h
        · exact parsePrim_wf h

theorem parseType_wf {s : String} {d : ParamType}
    (h : parseType s = .ok d) : wfType d = true :=
  parseTypeF_wf _ _ _ h

/-! ## Tokenization (modelled from the spec)

Modelled from the spec: `ethabi`'s `LenientTokenizer` / `StrictTokenizer` —
a single recursive tokenizer parameterized by mode, differing only at leaf
value parsing: lenient accepts decimal or `0x`-prefixed hex integers,
`true`/`false`/`1`/`0` booleans, quoted or unquoted strings, byte blobs with
or without `0x`; strict requires the canonical form. Out-of-range numerics
and arity mismatches are tokenization errors. -/

inductive TokMode where
  | lenient
  | strict
deriving DecidableEq

/-- All-hex-digit text parsed as a big-endian hex number. -/
def parseHexNat (cs : List Char) : Option Nat :=
  if !cs.isEmpty && cs.all (fun c => (hexVal c).isSome)
  then some (cs.foldl (fun a c => a * 16 + ((hexVal c).getD 0)) 0)
  else none

/-- Unsigned integer text: decimal, or (lenient only) `0x`-prefixed hex. -/
def parseUintText (mode : TokMode) (cs : List Char) : Option Nat :=
  match mode with
  | .lenient =>
    if cs.take 2 = "0x".data then parseHexNat (cs.drop 2)
    else parseNatDigits cs
  | .strict => parseNatDigits cs

/-- Signed integer text: optional leading minus sign. -/
def parseIntText (mode : TokMode) (cs : List Char) : Option Int :=
  match cs with
  | '-' :: rest => (parseNatDigits rest).map (fun n => -(n : Int))
  | _ => (parseUintText mode cs).map (fun n => (n : Int))

/-- Byte-blob text: hex, with an optional `0x` prefix in lenient mode. -/
def parseBytesText (mode : TokMode) (cs : List Char) : Option (List Nat) :=
  match mode with
  | .lenient =>
    if cs.take 2 = "0x".data then fromHexPairs (cs.drop 2)
    else fromHexPairs cs
  | .strict => fromHexPairs cs

/-- String text: quoted (both modes) or raw (lenient only). -/
def stripQuotes (mode : TokMode) (cs : List Char) : Option (List Char) :=
  if 2 ≤ cs.length ∧ cs.head? = some '"' ∧ cs.getLast? = some '"' then
    some ((cs.drop 1).dropLast)
  else
    match mode with
    | .lenient => some cs
    | .strict => none

/-- UTF-8 bytes of a string. -/
def strBytes (s : String) : List Nat :=
  s.toUTF8.toList.map (fun b => b.toNat)

theorem strBytes_lt (s : String) : ∀ b ∈ strBytes s, b < 256 := by
  intro b hb
  simp only [strBytes, List.mem_map] at hb
  obtain ⟨u, _, rfl⟩ := hb
  exact u.toNat_lt_size

theorem parseBytesText_lt {mode : TokMode} {cs : List Char} {bs : List Nat}
    (h : parseBytesText mode cs = some bs) : ∀ b ∈ bs, b < 256 := by
  unfold parseBytesText at h
  split at h
  · split at h
    · exact (fromHexPairs_ok h).2.2.2
    · exact (fromHexPairs_ok h).2.2.2
  · exact (fromHexPairs_ok h).2.2.2

mutual
/-- Modelled from the spec: `Tokenizer::tokenize` parameterized by mode. -/
def tokenize (mode : TokMode) : ParamType → List Char → Except AbiError Token
  | .bool, cs =>
    if cs = "true".data then .ok (.bool true)
    else if cs = "false".data then .ok (.bool false)
    else if mode = .lenient ∧ cs = "1".data then .ok (.bool true)
    else if mode = .lenient ∧ cs = "0".data then .ok (.bool false)
    else .error .tokenizeError
  | .uint b, cs =>
    match parseUintText mode cs with
    | some v => if v < 2 ^ b then .ok (.uint v) else .error .tokenizeError
    | none => .error .tokenizeError
  | .int b, cs =>
    match parseIntText mode cs with
    | some v =>
      if -(2 ^ (b - 1) : Int) ≤ v ∧ v < (2 ^ (b - 1) : Int) then .ok (.int v)
      else .error .tokenizeError
    | none => .error .tokenizeError
  | .address, cs =>
    match parseBytesText mode cs with
    | some a => if a.length = 20 then .ok (.address a) else .error .tokenizeError
    | none => .error .tokenizeError
  | .fixedBytes n, cs =>
    match parseBytesText mode cs with
    | some bs => if bs.length = n then .ok (.fixedBytes bs) else .error .tokenizeError
    | none => .error .tokenizeError
  | .bytes, cs =>
    match parseBytesText mode cs with
    | some bs => .ok (.bytes bs)
    | none => .error .tokenizeError
  | .string, cs =>
    match stripQuotes mode cs with
    | some inner => .ok (.string (strBytes (String.mk inner)))
    | none => .error .tokenizeError
  | .array t, cs =>
    if cs.head? = some '[' ∧ cs.getLast? = some ']' then
      if (cs.drop 1).dropLast = [] then .ok (.array [])
      else
        match tokList mode t (splitTop ((cs.drop 1).dropLast)) with
        | .ok xs =>
          if xs.length < 2 ^ 256 then .ok (.array xs) else .error .tokenizeError
        | .error e => .error e
    else .error .tokenizeError
  | .fixedArray t n, cs =>
    if cs.head? = some '[' ∧ cs.getLast? = some ']' then
      if (cs.drop 1).dropLast = [] then
        if n = 0 then .ok (.fixedArray []) else .error .tokenizeError
      else
        match tokList mode t (splitTop ((cs.drop 1).dropLast)) with
        | .ok xs =>
          if xs.length = n then .ok (.fixedArray xs) else .error .tokenizeError
        | .error e => .error e
    else .error .tokenizeError
  | .tuple ds, cs =>
    if cs.head? = some '(' ∧ cs.getLast? = some ')' then
      match tokTuple mode ds
          (if (cs.drop 1).dropLast = [] then []
           else splitTop ((cs.drop 1).dropLast)) with
      | .ok xs => .ok (.tuple xs)
      | .error e => .error e
    else .error .tokenizeError
termination_by d _ => (sizeOf d, 0)
/-- Recursively tokenize the delimited element texts of an array. -/
def tokList (mode : TokMode) (t : ParamType) :
    List (List Char) → Except AbiError (List Token)
  | [] => .ok []
  | p :: ps =>
    match tokenize mode t p with
    | .ok x =>
      match tokList mode t ps with
      | .ok xs => .ok (x :: xs)
      | .error e => .error e
    | .error e => .error e
termination_by ps => (sizeOf t, ps.length + 1)
/-- Recursively tokenize the delimited component texts of a tuple. -/
def tokTuple (mode : TokMode) :
    List ParamType → List (List Char) → Except AbiError (List Token)
  | [], [] => .ok []
  | d :: ds, p :: ps =>
    match tokenize mode d p with
    | .ok x =>
      match tokTuple mode ds ps with
      | .ok xs => .ok (x :: xs)
      | .error e => .error e
    | .error e => .error e
  | [], _ :: _ => .error .tokenizeError
  | _ :: _, [] => .error .tokenizeError
termination_by ds _ => (sizeOf ds, 0)
end

mutual
/-- A token produced by the tokenizer conforms to its (well-formed) descriptor. -/
theorem tokenize_conf (mode : TokMode) (d : ParamType) (cs : List Char)
    (t : Token) (hw : wfType d = true) (h : tokenize mode d cs = .ok t) :
    conf d t = true := by
  cases d with
  | bool =>
    rw [tokenize] at h
    split at h
    · cases h; rw [conf]
    · split at h
      · cases h; rw [conf]
      · split at h
        · cases h; rw [conf]
        · split at h
          · cases h; rw [conf]
          · cases h
  | uint b =>
    simp only [wfType, Bool.and_eq_true, decide_eq_true_eq] at hw
    rw [tokenize] at h
    split at h
    · rename_i v hv
      split at h
      · cases h
        simp only [conf, Bool.and_eq_true, decide_eq_true_eq]
        rename_i hlt
        exact ⟨by omega, hlt⟩
      · cases h
    · cases h
  | int b =>
    simp only [wfType, Bool.and_eq_true, decide_eq_true_eq] at hw
    rw [tokenize] at h
    split at h
    · rename_i v hv
      split at h
      · cases h
        simp only [conf, Bool.and_eq_true, decide_eq_true_eq]
        rename_i hrange
        exact ⟨⟨⟨by omega, by omega⟩, hrange.1⟩, hrange.2⟩
      · cases h
    · cases h
  | address =>
    rw [tokenize] at h
    split at h
    · rename_i a ha
      split at h
      · cases h
        simp only [conf, Bool.and_eq_true, decide_eq_true_eq]
        rename_i hlen
        exact ⟨hlen, (allLt256_iff a).mpr (parseBytesText_lt ha)⟩
      · cases h
    · cases h
  | fixedBytes n =>
    simp only [wfType, Bool.and_eq_true, decide_eq_true_eq] at hw
    rw [tokenize] at h
    split at h
    · rename_i bs hbs
      split at h
      · cases h
        simp only [conf, Bool.and_eq_true, decide_eq_true_eq]
        rename_i hlen
        exact ⟨⟨⟨hlen, hw.1⟩, hw.2⟩, (allLt256_iff bs).mpr (parseBytesText_lt hbs)⟩
      · cases h
    · cases h
  | bytes =>
    rw [tokenize] at h
    split at h
    · rename_i bs hbs
      cases h
      rw [conf]
      exact (allLt256_iff bs).mpr (parseBytesText_lt hbs)
    · cases h
  | string =>
    rw [tokenize] at h
    split at h
    · rename_i inner hinner
      cases h
      rw [conf]
      exact (allLt256_iff _).mpr (strBytes_lt _)
    · cases h
  | array t' =>
    simp only [wfType] at hw
    rw [tokenize] at h
    split at h
    · split at h
      · cases h
        simp only [conf, Bool.and_eq_true, decide_eq_true_eq]
        refine ⟨by rw [confArr], by norm_num⟩
      · split at h
        · rename_i xs hxs
          split at h
          · cases h
            simp only [conf, Bool.and_eq_true, decide_eq_true_eq]
            rename_i hcnt
            exact ⟨tokList_conf mode t' _ xs hw hxs, hcnt⟩
          · cases h
        · cases h
    · cases h
  | fixedArray t' n =>
    simp only [wfType] at hw
    rw [tokenize] at h
    split at h
    · split at h
      · split at h
        · rename_i hn
          cases h
          simp only [conf, Bool.and_eq_true, decide_eq_true_eq]
          refine ⟨?_, ?_⟩
          · rw [confArr]
          · simp only [List.length_nil]
            omega
        · cases h
      · split at h
        · rename_i xs hxs
          split at h
          · cases h
            simp only [conf, Bool.and_eq_true, decide_eq_true_eq]
            rename_i hlen
            exact ⟨tokList_conf mode t' _ xs hw hxs, hlen⟩
          · cases h
        · cases h
    · cases h
  | tuple ds =>
    simp only [wfType] at hw
    rw [tokenize] at h
    split at h
    · split at h
      · rename_i xs hxs
        cases h
        rw [conf]
        exact tokTuple_conf mode ds _ xs hw hxs
      · cases h
    · cases h
termination_by (sizeOf d, 0)
theorem tokList_conf (mode : TokMode) (t' : ParamType) (ps : List (List Char))
    (xs : List Token) (hw : wfType t' = true) (h : tokList mode t' ps = .ok xs) :
    confArr t' xs = true := by
  cases ps with
  | nil =>
    rw [tokList] at h
    cases h
    rw [confArr]
  | cons p ps =>
    rw [tokList] at h
    split at h
    · rename_i x hx
      split at h
      · rename_i xs' hxs
        cases h
        rw [confArr, Bool.and_eq_true]
        exact ⟨tokenize_conf mode t' p x hw hx, tokList_conf mode t' ps xs' hw hxs⟩
      · cases h
    · cases h
termination_by (sizeOf t', ps.length + 1)
theorem tokTuple_conf (mode : TokMode) (ds : List ParamType)
    (ps : List (List Char)) (xs : List Token) (hw : wfList ds = true)
    (h : tokTuple mode ds ps = .ok xs) : confList ds xs = true := by
  cases ds with
  | nil =>
    cases ps with
    | nil =>
      rw [tokTuple] at h
      cases h
      rw [confList]
    | cons p ps =>
      rw [tokTuple] at h
      cases h
  | cons d ds =>
    cases ps with
    | nil =>
      rw [tokTuple] at h
      cases h
    | cons p ps =>
      rw [wfList, Bool.and_eq_true] at hw
      rw [tokTuple] at h
      split at h
      · rename_i x hx
        split at h
        · rename_i xs' hxs
          cases h
          rw [confList, Bool.and_eq_true]
          exact ⟨tokenize_conf mode d p x hw.1 hx,
            tokTuple_conf mode ds ps xs' hw.2 hxs⟩
        · cases h
      · cases h
termination_by (sizeOf ds, 0)
end

/-! ## The module under verification: `src/wallet-cli/src/utils/abi.rs` -/

/-- Outcome of calling a function that may panic (assertion failure), return a
typed error, or succeed. -/
inductive RunResult (α : Type) where
  | panics
  | error (e : AbiError)
  | ok (v : α)

/-- The type-reading closure of `encode_params` / `decode_params`: the
`trcToken` alias is substituted (as a whole type string, before grammar
parsing) by `uint256`. -/
def readMapped (s : String) : Except AbiError ParamType :=
  if s = "trcToken" then parseType "uint256" else parseType s

/-- `parse_tokens` from the source: tokenize each (type, text) pair, lenient
or strict. -/
def parse_tokens (params : List (ParamType × String)) (lenient : Bool) :
    Except AbiError (List Token) :=
  mapE params (fun p =>
    if lenient then tokenize .lenient p.1 p.2.data
    else tokenize .strict p.1 p.2.data)

/-- `encode_params` from the source: asserts equal lengths (panic on
mismatch), maps type strings through the `trcToken` substitution and the
grammar, tokenizes leniently, and encodes. -/
def encode_params (types : List String) (values : List String) :
    RunResult (List Nat) :=
  if types.length ≠ values.length then .panics
  else
    match mapE types readMapped with
    | .error e => .error e
    | .ok ds =>
      match parse_tokens (ds.zip values) true with
      | .error e => .error e
      | .ok toks => .ok (encode toks)

/-- Rust `Debug`-style escaping of a text byte (quote, backslash and common
control characters). -/
def escByte (b : Nat) : List Char :=
  if b = 34 then ['\\', '"']
  else if b = 92 then ['\\', '\\']
  else if b = 10 then ['\\', 'n']
  else if b = 13 then ['\\', 'r']
  else if b = 9 then ['\\', 't']
  else [Char.ofNat b]

/-- Modelled from the spec: Rust's `Debug` rendering of a `String`
(`format!("{:?}", s)`): quoted and escaped. -/
def rustDebugString (bs : List Nat) : String :=
  "\"" ++ String.mk (bs.flatMap escByte) ++ "\""

/-- `Debug` of a `Vec<u8>`: decimal bytes in brackets. -/
def rustDebugBytes (bs : List Nat) : String :=
  "[" ++ String.intercalate ", " (bs.map Nat.repr) ++ "]"

mutual
/-- Modelled from the spec: the derived `Debug` rendering of an `ethabi`
token (`format!("{:?}", t)`), reached by `pformat_abi_token`'s fallback arm.
`Int` tokens hold the raw two's-complement 256-bit word, whose `Debug`
(forwarded to `Display` by the `uint` crate) is its unsigned decimal. -/
def rustDebugToken : Token → String
  | .bool b => "Bool(" ++ (if b then "true" else "false") ++ ")"
  | .uint v => "Uint(" ++ Nat.repr v ++ ")"
  | .int v => "Int(" ++ Nat.repr (Int.toNat (v % (2 ^ 256))) ++ ")"
  | .address a => "Address(0x" ++ hexStr a ++ ")"
  | .fixedBytes bs => "FixedBytes(" ++ rustDebugBytes bs ++ ")"
  | .bytes bs => "Bytes(" ++ rustDebugBytes bs ++ ")"
  | .string bsv => "String(" ++ rustDebugString bsv ++ ")"
  | .array xs => "Array([" ++ rustDebugList xs ++ "])"
  | .fixedArray xs => "FixedArray([" ++ rustDebugList xs ++ "])"
  | .tuple xs => "Tuple([" ++ rustDebugList xs ++ "])"
termination_by t => (sizeOf t, 0)
def rustDebugList : List Token → String
  | [] => ""
  | [x] => rustDebugToken x
  | x :: xs => rustDebugToken x ++ ", " ++ rustDebugList xs
termination_by xs => (sizeOf xs, 0)
end

mutual
/-- `pformat_abi_token` from the source. The address formatter
(`keys::Address::from_tvm_bytes(..).to_string()`) is an external collaborator
passed as `addrFmt`. The `Int` and `FixedArray` variants have no arm of their
own and fall to the source's `format!("{:?}", t)` fallback. -/
def pformat_abi_token (addrFmt : List Nat → String) : Token → String
  | .address raw => addrFmt raw
  | .string sv => rustDebugString sv
  | .uint v => Nat.repr v
  | .bool v => if v then "true" else "false"
  | .array xs => "[" ++ pformatListStr addrFmt xs ++ "]"
  | .bytes bs => hexStr bs
  | .fixedBytes bs => hexStr bs
  | .tuple _ => "tuple(...)"
  | .int v => rustDebugToken (.int v)
  | .fixedArray xs => rustDebugToken (.fixedArray xs)
termination_by t => (sizeOf t, 0)
/-- The `", "`-joined recursive formatting of array elements. -/
def pformatListStr (addrFmt : List Nat → String) : List Token → String
  | [] => ""
  | [x] => pformat_abi_token addrFmt x
  | x :: xs => pformat_abi_token addrFmt x ++ ", " ++ pformatListStr addrFmt xs
termination_by xs => (sizeOf xs, 0)
end

/-- `decode_params` from the source: parse types (with the `trcToken`
substitution), hex-decode the payload, ABI-decode, assert the count, format. -/
def decode_params (addrFmt : List Nat → String) (types : List String)
    (data : String) : RunResult (List String) :=
  match mapE types readMapped with
  | .error e => .error e
  | .ok ds =>
    match fromHexPairs data.data with
    | none => .error .hexError
    | some bytes =>
      match decode ds bytes with
      | none => .error .decodeError
      | some toks =>
        if ds.length ≠ toks.length then .panics
        else .ok (toks.map (pformat_abi_token addrFmt))

/-- `fnhash` from the source: the first 4 bytes of the external hash
(`crypto::keccak256`, an external collaborator passed as `keccak`) of the
method-name string's bytes. -/
def fnhash (keccak : List Nat → List Nat) (fname : String) : List Nat :=
  (keccak (strBytes fname)).take 4

/-- `SmartContract_ABI_Entry_EntryType` from the protobuf definitions. -/
inductive AbiEntryType where
  | UnknownEntryType
  | Constructor
  | Function
  | Event
  | Fallback
deriving DecidableEq

/-- `SmartContract_ABI_Entry_StateMutabilityType` from the protobuf
definitions. -/
inductive StateMutabilityType where
  | UnknownMutabilityType
  | Pure
  | View
  | Nonpayable
  | Payable
deriving DecidableEq

/-- One named, typed parameter of an ABI entry (the protobuf `Param`:
`name`, `type`, `indexed`). -/
structure AbiParam where
  name : String
  fieldType : String
  indexed : Bool
deriving DecidableEq

/-- `SmartContract_ABI_Entry`: externally supplied, read-only. -/
structure AbiEntry where
  name : String
  entryType : AbiEntryType
  inputs : List AbiParam
  outputs : List AbiParam
  payable : Bool
  stateMutability : StateMutabilityType

/-- `entry_to_method_name` from the source:
`format!("{}({})", name, input types joined by ",")`. -/
def entry_to_method_name (e : AbiEntry) : String :=
  e.name ++ "(" ++ String.intercalate "," (e.inputs.map (fun a => a.fieldType)) ++ ")"

/-- One argument of the pretty signature: `type`, `type indexed name`, or
`type name`. -/
def argPretty (a : AbiParam) : String :=
  if a.name = "" then a.fieldType
  else if a.indexed then a.fieldType ++ " indexed " ++ a.name
  else a.fieldType ++ " " ++ a.name

/-- `write!` into an in-memory `String`: the `fmt::Write` impl for `String`
never fails, so this always returns `Ok`. -/
def wr (acc s : String) : Except AbiError String := .ok (acc ++ s)

/-- `entry_to_method_name_pretty` from the source. -/
def entry_to_method_name_pretty (e : AbiEntry) : Except AbiError String :=
  (if e.entryType ≠ AbiEntryType.Fallback then
      wr (match e.entryType with
          | .Function => "function"
          | .Fallback => "function"
          | .Event => "event"
          | .Constructor => "constructor"
          | _ => "") (" " ++ e.name)
    else .ok (match e.entryType with
          | .Function => "function"
          | .Fallback => "function"
          | .Event => "event"
          | .Constructor => "constructor"
          | _ => "")).bind fun p1 =>
  (wr p1 ("(" ++ String.intercalate ", " (e.inputs.map argPretty) ++ ")")).bind fun p2 =>
  (if e.payable then wr p2 " payable" else .ok p2).bind fun p3 =>
  (if e.stateMutability = StateMutabilityType.View then wr p3 " view"
   else .ok p3).bind fun p4 =>
  if e.outputs ≠ [] then
    wr p4 (" returns (" ++
      String.intercalate ", " (e.outputs.map (fun a => a.fieldType)) ++ ")")
  else .ok p4

/-- `entry_to_input_types` from the source. -/
def entry_to_input_types (e : AbiEntry) : List String :=
  e.inputs.map (fun a => a.fieldType)

/-- `entry_to_output_types` from the source. -/
def entry_to_output_types (e : AbiEntry) : List String :=
  e.outputs.map (fun a => a.fieldType)

/-! ## Bridging lemmas for the module-level round trip -/

theorem readMapped_wf {s : String} {d : ParamType}
    (h : readMapped s = .ok d) : wfType d = true := by
  unfold readMapped at h
  split at h
  · exact parseType_wf h
  · exact parseType_wf h

theorem forall₂_wf_mem {α : Type} {l : List α} {ds : List ParamType}
    {f : α → Except AbiError ParamType}
    (hfa : List.Forall₂ (fun a b => f a = .ok b) l ds)
    (hwf : ∀ a d, f a = .ok d → wfType d = true) :
    ∀ d ∈ ds, wfType d = true := by
  induction hfa with
  | nil => intro x hx; cases hx
  | cons hf _ ihf =>
    intro x hx
    rcases List.mem_cons.mp hx with rfl | hx'
    · exact hwf _ _ hf
    · exact ihf x hx'

theorem mapE_readMapped_wf {types : List String} {ds : List ParamType}
    (h : mapE types readMapped = .ok ds) : ∀ d ∈ ds, wfType d = true :=
  forall₂_wf_mem (mapE_ok_forall h) (fun _ _ hd => readMapped_wf hd)

theorem parse_tokens_conf (ds : List ParamType) (vs : List String)
    (toks : List Token) (hw : ∀ d ∈ ds, wfType d = true)
    (h : parse_tokens (ds.zip vs) true = .ok toks) (hlen : ds.length = vs.length) :
    confList ds toks = true := by
  induction ds generalizing vs toks with
  | nil =>
    rw [parse_tokens, List.zip_nil_left, mapE] at h
    cases h
    rw [confList]
  | cons d ds ih =>
    cases vs with
    | nil => simp at hlen
    | cons v vs =>
      rw [parse_tokens, List.zip_cons_cons, mapE] at h
      split at h
      · cases h
      · rename_i x hx
        simp only [if_true] at hx
        split at h
        · cases h
        · rename_i xs hxs
          cases h
          rw [confList, Bool.and_eq_true]
          constructor
          · exact tokenize_conf .lenient d v.data x (hw d (by simp)) hx
          · exact ih vs xs (fun d2 hd2 => hw d2 (by simp [hd2]))
              (by rw [parse_tokens]; exact hxs) (by simpa using hlen)

theorem mapE_subst {α β : Type} {f : α → Except AbiError β} {a b : α}
    (hab : f a = f b) (l1 l2 : List α) :
    mapE (l1 ++ a :: l2) f = mapE (l1 ++ b :: l2) f := by
  induction l1 with
  | nil => rw [List.nil_append, List.nil_append, mapE, mapE, hab]
  | cons x xs ih => rw [List.cons_append, List.cons_append, mapE, mapE, ih]

/-! ## The claims -/

/-- C1: Round-trip law of the codec — for every descriptor list and
conforming token list (with a word-representable encoding size), decoding the
encoding yields exactly the tokens, and the encoding's byte length is a
multiple of 32; at the module interface, `decode_params` applied to the same
type strings and the hex of `encode_params`'s output recovers one formatted
value per input value. -/
theorem c1_roundtrip_law :
    (∀ (ds : List ParamType) (ts : List Token),
        confList ds ts = true → seqLen ts < 2 ^ 256 →
        decode ds (encode ts) = some ts ∧ (encode ts).length % 32 = 0) ∧
    (∀ (addrFmt : List Nat → String) (types values : List String)
        (bs : List Nat),
        encode_params types values = .ok bs → bs.length < 2 ^ 256 →
        ∃ outs, decode_params addrFmt types (hexStr bs) = .ok outs ∧
          outs.length = values.length) := by
  constructor
  · intro ds ts hc hb
    exact ⟨decode_encode ds ts hc hb, encode_length_mod32 ds ts hc⟩
  · intro addrFmt types values bs henc hblen
    rw [encode_params] at henc
    split at henc
    · cases henc
    · rename_i hlen
      split at henc
      · cases henc
      · rename_i ds hds
        split at henc
        · cases henc
        · rename_i toks htoks
          cases henc
          have hw : ∀ d ∈ ds, wfType d = true := mapE_readMapped_wf hds
          have hdslen : ds.length = types.length := mapE_ok_length hds
          have hvlen : types.length = values.length := by omega
          have hconf : confList ds toks = true :=
            parse_tokens_conf ds values toks hw htoks (by omega)
          have htlen : toks.length = ds.length := by
            have h1 := mapE_ok_length htoks
            rw [List.length_zip] at h1
            omega
          have hEnc : ∀ x ∈ toks, (encodeToken x).length = encLen x :=
            encLenList ds toks hconf
          have hselen : (encode toks).length = seqLen toks := encode_length toks hEnc
          have hhex : fromHexPairs (hexStr (encode toks)).data = some (encode toks) :=
            fromHexPairs_hexStr (encode_lt toks (encodeList_lt ds toks hconf))
          have hdec : decode ds (encode toks) = some toks :=
            decode_encode ds toks hconf (by omega)
          refine ⟨toks.map (pformat_abi_token addrFmt), ?_, ?_⟩
          · simp only [decode_params, hds, hhex, hdec]
            rw [if_neg (by omega)]
          · rw [List.length_map]
            omega

/-- C1 witness: a concrete conforming instance for both parts. -/
theorem c1_roundtrip_law_witness :
    (decode [ParamType.uint 256] (encode [Token.uint 100])
        = some [Token.uint 100] ∧
      (encode [Token.uint 100]).length % 32 = 0) ∧
    (∃ outs, decode_params (fun _ => "") [] (hexStr []) = .ok outs ∧
      outs.length = ([] : List String).length) := by
  constructor
  · exact c1_roundtrip_law.1 [ParamType.uint 256] [Token.uint 100]
      (by simp only [confList, confArr, conf, Bool.and_eq_true, decide_eq_true_eq]
          norm_num)
      (by simp only [seqLen, encLen, isDynamicTok]
          norm_num)
  · exact c1_roundtrip_law.2 (fun _ => "") [] [] []
      (by simp [encode_params, mapE, parse_tokens, encode, encodeGo, headsLen])
      (by norm_num)

/-- C2: Alias substitution — `encode_params` and `decode_params` treat the
type string `trcToken` exactly as `uint256` (byte-identical output for any
value text and any argument position), and the substitution is performed on
the whole type string before grammar parsing (`readMapped`). -/
theorem c2_trcToken_alias :
    (∀ v : String, encode_params ["trcToken"] [v] = encode_params ["uint256"] [v]) ∧
    (∀ (addrFmt : List Nat → String) (d : String),
        decode_params addrFmt ["trcToken"] d = decode_params addrFmt ["uint256"] d) ∧
    readMapped "trcToken" = parseType "uint256" ∧
    (∀ (pre post values : List String),
        encode_params (pre ++ "trcToken" :: post) values
          = encode_params (pre ++ "uint256" :: post) values) := by
  have hab : readMapped "trcToken" = readMapped "uint256" := by
    rw [readMapped, readMapped, if_pos rfl, if_neg (by decide)]
  refine ⟨?_, ?_, ?_, ?_⟩
  · intro v
    have hm : mapE ["trcToken"] readMapped = mapE ["uint256"] readMapped := by
      simp only [mapE, hab]
    rw [encode_params, encode_params, hm]
    rfl
  · intro addrFmt d
    have hm : mapE ["trcToken"] readMapped = mapE ["uint256"] readMapped := by
      simp only [mapE, hab]
    rw [decode_params, decode_params, hm]
  · rw [readMapped, if_pos rfl]
  · intro pre post values
    have hm := mapE_subst hab pre post
    have hl : (pre ++ "trcToken" :: post).length
        = (pre ++ "uint256" :: post).length := by simp
    rw [encode_params, encode_params, hm, hl]

/-- C3: Selector determinism — the 4-byte selector is a pure function of the
method-name string (the first 4 bytes of the external hash of
`entry_to_method_name`'s output); two entries with identical name and
identical input type strings have identical selectors regardless of parameter
names, indexed flags, outputs, payable or mutability flags. -/
theorem c3_selector_determinism :
    (∀ (keccak : List Nat → List Nat) (s : String),
        fnhash keccak s = (keccak (strBytes s)).take 4) ∧
    (∀ (keccak : List Nat → List Nat) (e1 e2 : AbiEntry),
        e1.name = e2.name →
        e1.inputs.map (fun a => a.fieldType) = e2.inputs.map (fun a => a.fieldType) →
        fnhash keccak (entry_to_method_name e1)
          = fnhash keccak (entry_to_method_name e2)) := by
  constructor
  · intro keccak s
    rfl
  · intro keccak e1 e2 hn hi
    rw [entry_to_method_name, entry_to_method_name, hn, hi]

/-- C3 witness: two entries agreeing only in name and input type strings —
differing in parameter names, indexed flags, outputs, payable and mutability —
have the same selector under an arbitrary concrete hash. -/
theorem c3_selector_determinism_witness :
    fnhash (fun bs => bs) (entry_to_method_name
      ⟨"transfer", AbiEntryType.Function,
        [⟨"to", "address", false⟩, ⟨"value", "uint256", false⟩], [],
        false, StateMutabilityType.Nonpayable⟩)
    = fnhash (fun bs => bs) (entry_to_method_name
      ⟨"transfer", AbiEntryType.Event,
        [⟨"dst", "address", true⟩, ⟨"amount", "uint256", false⟩],
        [⟨"", "bool", false⟩], true, StateMutabilityType.View⟩) :=
  c3_selector_determinism.2 (fun bs => bs) _ _ rfl rfl

/-- C4: `entry_to_method_name` returns `name(type1,type2,...)` — the entry's
name and raw input type strings joined with commas and no spaces; in
particular `transfer(address,uint256)` for the standard transfer entry. -/
theorem c4_method_name :
    (∀ e : AbiEntry, entry_to_method_name e
        = e.name ++ "(" ++
          String.intercalate "," (e.inputs.map (fun a => a.fieldType)) ++ ")") ∧
    entry_to_method_name
      ⟨"transfer", AbiEntryType.Function,
        [⟨"to", "address", false⟩, ⟨"value", "uint256", false⟩], [],
        false, StateMutabilityType.Nonpayable⟩
      = "transfer(address,uint256)" := by
  constructor
  · intro e
    rfl
  · rfl

/-- C5: `entry_to_method_name_pretty` builds `"<kind> <name>(<args>)"` with
kind mapped from the entry kind (`Function`/`Fallback` → `function`, `Event`
→ `event`, `Constructor` → `constructor`, anything else → `""`), the name
omitted exactly for `Fallback`, `" payable"` appended iff the payable flag,
`" view"` appended iff the mutability is exactly `View`, and
`" returns (...)"` appended iff outputs is non-empty; the concrete payable
view function renders as specified. -/
theorem c5_pretty_signature :
    (∀ e : AbiEntry,
      entry_to_method_name_pretty e = .ok (
        (match e.entryType with
          | .Function => "function"
          | .Fallback => "function"
          | .Event => "event"
          | .Constructor => "constructor"
          | _ => "")
        ++ (if e.entryType = AbiEntryType.Fallback then "" else " " ++ e.name)
        ++ ("(" ++ String.intercalate ", " (e.inputs.map argPretty) ++ ")")
        ++ (if e.payable then " payable" else "")
        ++ (if e.stateMutability = StateMutabilityType.View then " view" else "")
        ++ (if e.outputs = [] then ""
            else " returns (" ++
              String.intercalate ", " (e.outputs.map (fun a => a.fieldType)) ++ ")"))) ∧
    entry_to_method_name_pretty
      ⟨"foo", AbiEntryType.Function, [⟨"amount", "uint256", false⟩],
        [⟨"", "bool", false⟩], true, StateMutabilityType.View⟩
      = .ok "function foo(uint256 amount) payable view returns (bool)" := by
  constructor
  · intro e
    rw [entry_to_method_name_pretty]
    by_cases h1 : e.entryType = AbiEntryType.Fallback <;>
      by_cases h2 : e.payable <;>
        by_cases h3 : e.stateMutability = StateMutabilityType.View <;>
          by_cases h4 : e.outputs = [] <;>
            simp [h1, h2, h3, h4, wr, Except.bind, String.append_assoc]
  · rfl

/-- C6 counterexample: the claim "an `Int` token formats as the decimal
representation of the contained value" fails at the token `Int(5)`, which
formats via the debug fallback as `"Int(5)"`, not `"5"`. -/
theorem c6_counterexample :
    ¬ (pformat_abi_token (fun _ => "") (Token.int 5) = "5") := by
  have h5 : ((5 : Int) % (2 ^ 256)) = 5 :=
    Int.emod_eq_of_lt (by norm_num) (by norm_num)
  rw [pformat_abi_token, rustDebugToken, h5]
  decide

/-- C6 (amended): `pformat_abi_token` renders a `Uint` token as the decimal
representation of its value, but an `Int` token has no arm of its own and
falls to the generic debug fallback, rendering as
`"Int(<unsigned decimal of the raw two's-complement 256-bit word>)"` —
e.g. `"Int(5)"` for the value 5 — never as a plain decimal string. -/
theorem c6_integer_formatting :
    (∀ (f : List Nat → String) (v : Nat),
        pformat_abi_token f (Token.uint v) = Nat.repr v) ∧
    (∀ (f : List Nat → String) (i : Int),
        pformat_abi_token f (Token.int i)
          = "Int(" ++ Nat.repr (Int.toNat (i % (2 ^ 256))) ++ ")") ∧
    pformat_abi_token (fun _ => "") (Token.int 5) = "Int(5)" := by
  refine ⟨?_, ?_, ?_⟩
  · intro f v
    rw [pformat_abi_token]
  · intro f i
    rw [pformat_abi_token, rustDebugToken]
  · have h5 : ((5 : Int) % (2 ^ 256)) = 5 :=
      Int.emod_eq_of_lt (by norm_num) (by norm_num)
    rw [pformat_abi_token, rustDebugToken, h5]
    rfl

/-- C7: `encode_params` panics (assertion failure) exactly on a length
mismatch between the parallel type and value lists; under equal lengths it
never panics and returns a typed result (`Ok` or `Err`). -/
theorem c7_length_assertion :
    (∀ types values : List String, types.length ≠ values.length →
        encode_params types values = RunResult.panics) ∧
    (∀ types values : List String, types.length = values.length →
        (∃ e, encode_params types values = .error e) ∨
        (∃ bs, encode_params types values = .ok bs)) := by
  constructor
  · intro types values h
    rw [encode_params, if_pos h]
  · intro types values h
    rw [encode_params, if_neg (by omega)]
    match hm : mapE types readMapped with
    | .error e =>
      refine Or.inl ⟨e, ?_⟩
      simp only [hm]
    | .ok ds =>
      match hp : parse_tokens (ds.zip values) true with
      | .error e =>
        refine Or.inl ⟨e, ?_⟩
        simp only [hm, hp]
      | .ok toks =>
        refine Or.inr ⟨encode toks, ?_⟩
        simp only [hm, hp]

/-- C7 witness: a concrete mismatch panics; concrete equal lengths return
normally. -/
theorem c7_length_assertion_witness :
    encode_params ["uint256"] [] = RunResult.panics ∧
    ((∃ e, encode_params [] [] = .error e) ∨
      (∃ bs, encode_params [] [] = .ok bs)) :=
  ⟨c7_length_assertion.1 ["uint256"] [] (by decide),
    c7_length_assertion.2 [] [] rfl⟩

/-- C8: the formatter renders every `Tuple` token as the fixed opaque
placeholder `"tuple(...)"`, regardless of its elements, and never fails. -/
theorem c8_tuple_placeholder :
    ∀ (f : List Nat → String) (xs : List Token),
      pformat_abi_token f (Token.tuple xs) = "tuple(...)" := by
  intro f xs
  rw [pformat_abi_token]

/-- C9 (implicit): `entry_to_method_name_pretty` returns `Ok` for every
entry — the writes go into an in-memory string whose writer never fails, so
the error branch is unreachable. -/
theorem c9_pretty_always_ok :
    ∀ e : AbiEntry, ∃ s, entry_to_method_name_pretty e = .ok s := by
  intro e
  rw [entry_to_method_name_pretty]
  by_cases h1 : e.entryType ≠ AbiEntryType.Fallback <;>
    by_cases h2 : e.payable <;>
      by_cases h3 : e.stateMutability = StateMutabilityType.View <;>
        by_cases h4 : e.outputs ≠ [] <;>
          simp [h1, h2, h3, h4, wr, Except.bind]

/-- C10 (implicit): `decode_params` takes the payload as a hex string; for
every input containing a non-hex character or an odd number of hex digits it
returns an `Err` (the hex decoding, before any ABI decoding, when the type
strings parse) and never panics on such input. -/
theorem c10_hex_errors :
    ∀ (addrFmt : List Nat → String) (types : List String) (data : String),
      (data.data.length % 2 = 1 ∨ ∃ c ∈ data.data, hexVal c = none) →
      ∃ e, decode_params addrFmt types data = RunResult.error e := by
  intro addrFmt types data hbad
  match hm : mapE types readMapped with
  | .error e =>
    refine ⟨e, ?_⟩
    simp only [decode_params, hm]
  | .ok ds =>
    have hhex : fromHexPairs data.data = none := by
      cases hfh : fromHexPairs data.data with
      | none => rfl
      | some bs =>
        exfalso
        obtain ⟨heven, _, hhexall, _⟩ := fromHexPairs_ok hfh
        rcases hbad with hodd | ⟨c, hc, hcv⟩
        · omega
        · have hsome := hhexall c hc
          rw [hcv] at hsome
          cases hsome
    refine ⟨.hexError, ?_⟩
    simp only [decode_params, hm, hhex]

/-- C10 witness: a concrete non-hex payload yields an `Err`. -/
theorem c10_hex_errors_witness :
    ∃ e, decode_params (fun _ => "") [] "zz" = RunResult.error e :=
  c10_hex_errors (fun _ => "") [] "zz" (Or.inr ⟨'z', by decide, by decide⟩)

end Abi
